import Mathlib

/-!
Verification of the agent-orchestration server (`src/server.js`).

The development shallowly embeds the components the specification talks
about: the `FileLockManager`, the `FileSystemTools` workspace operations
(path validation, create/read/replace/list/delete over an explicit
directory-tree model of the filesystem), the per-agent turn state machine
(talk budget, text-only streak, completion/reactivation), the
tool-invocation/response correlation safeguard that repairs the
transcript after a turn, and the conversation start/stop control handlers.

Strings manipulated character-by-character (paths, file contents) are
modelled as `List Char`; maps are association lists; JavaScript `Date.now()`
timestamps are natural numbers.
-/

namespace Server

/-! ## FileLockManager (src/server.js lines 27-71) -/

/-- A recorded lock: `{ agent, timestamp }`. -/
structure LockInfo where
  agent : String
  timestamp : Nat
deriving DecidableEq, Repr

/-- Model of `this.locks`, keyed by the raw `filePath` argument. -/
abbrev Locks := List (List Char × LockInfo)

/-- Model of `LOCK_TIMEOUT = 30000` (30 seconds). -/
def LOCK_TIMEOUT : Nat := 30000

/-- Model of `Map.get` on the association-list model. -/
def lockGet (m : Locks) (k : List Char) : Option LockInfo :=
  match m with
  | [] => none
  | (k', v) :: rest => if k' = k then some v else lockGet rest k

/-- Model of `Map.set` on the association-list model (replaces in place or appends). -/
def lockSet (m : Locks) (k : List Char) (v : LockInfo) : Locks :=
  match m with
  | [] => [(k, v)]
  | (k', v') :: rest => if k' = k then (k, v) :: rest else (k', v') :: lockSet rest k v

/-- Model of `Map.delete` on the association-list model. -/
def lockDel (m : Locks) (k : List Char) : Locks :=
  match m with
  | [] => []
  | (k', v') :: rest => if k' = k then rest else (k', v') :: lockDel rest k

/-- Model of `FileLockManager.acquireLock(filePath, agentName)`: fails iff a lock by a
different agent exists with `now - timestamp < LOCK_TIMEOUT`; otherwise records
or refreshes the lock. Returns (success flag, updated lock map). -/
def acquireLock (locks : Locks) (filePath : List Char) (agentName : String) (now : Nat) :
    Bool × Locks :=
  match lockGet locks filePath with
  | some lock =>
      if lock.agent ≠ agentName ∧ now - lock.timestamp < LOCK_TIMEOUT then
        (false, locks)
      else
        (true, lockSet locks filePath ⟨agentName, now⟩)
  | none => (true, lockSet locks filePath ⟨agentName, now⟩)

/-- Model of `FileLockManager.releaseLock(filePath, agentName)`: removes the lock only
if the recorded agent matches; otherwise a no-op returning `false`. -/
def releaseLock (locks : Locks) (filePath : List Char) (agentName : String) :
    Bool × Locks :=
  match lockGet locks filePath with
  | some lock =>
      if lock.agent = agentName then (true, lockDel locks filePath)
      else (false, locks)
  | none => (false, locks)

/-- Model of `FileLockManager.getLockOwner(filePath)`: returns the live owner, lazily
evicting an entry with `now - timestamp > LOCK_TIMEOUT`. -/
def getLockOwner (locks : Locks) (filePath : List Char) (now : Nat) :
    Option String × Locks :=
  match lockGet locks filePath with
  | none => (none, locks)
  | some lock =>
      if now - lock.timestamp > LOCK_TIMEOUT then (none, lockDel locks filePath)
      else (some lock.agent, locks)

/-! Association-list lemmas for the lock map. -/

/-- A JavaScript `Map` never holds two entries with the same key; the
association-list model of a reachable lock map has pairwise-distinct keys. -/
abbrev LocksWF (m : Locks) : Prop := (m.map Prod.fst).Nodup

/-! ## Workspace path validation (src/server.js lines 81-91)

`_validatePath` computes `path.resolve(PROJECT_WORKSPACE, filePath)` and
rejects the path unless the resolved string starts with `PROJECT_WORKSPACE`
(`'/tmp/project'`).  POSIX `path.resolve` with an absolute base is modelled
segment-wise: split on `'/'`, drop empty and `'.'` segments, let `'..'` pop
the last segment (clamped at the root). -/

/-- Failure kinds thrown by the workspace operations. -/
inductive FsErr where
  | accessDenied
  | alreadyExists
  | notFound
  | noMatch
  | isDirectory
  | locked
  | ioError
deriving DecidableEq, Repr

/-- The workspace root constant `PROJECT_WORKSPACE = '/tmp/project'`. -/
def PROJECT_WORKSPACE : List Char := "/tmp/project".toList

/-- Split a character list on `'/'`. -/
def splitSlash : List Char → List (List Char)
  | [] => [[]]
  | c :: rest =>
      match splitSlash rest with
      | [] => [[]]
      | s :: ss => if c = '/' then [] :: s :: ss else (c :: s) :: ss

/-- One step of POSIX path normalization over an absolute segment stack. -/
def normStep (acc : List (List Char)) (seg : List Char) : List (List Char) :=
  if seg = [] ∨ seg = ['.'] then acc
  else if seg = ['.', '.'] then acc.dropLast
  else acc ++ [seg]

/-- Normalize a segment sequence of an absolute path. -/
def normSegs (segs : List (List Char)) : List (List Char) :=
  segs.foldl normStep []

/-- Model of `path.resolve(PROJECT_WORKSPACE, filePath)` as a segment list: an absolute
argument replaces the base, a relative one is appended to it. -/
def resolvePath (filePath : List Char) : List (List Char) :=
  if filePath.head? = some '/' then normSegs (splitSlash filePath)
  else normSegs (splitSlash (PROJECT_WORKSPACE ++ '/' :: filePath))

/-- Join segments with `'/'` separators (no leading slash). -/
def renderSegs : List (List Char) → List Char
  | [] => []
  | [s] => s
  | s :: rest => s ++ '/' :: renderSegs rest

/-- Render an absolute path string from its segments (`[] ↦ "/"`). -/
def renderAbs (segs : List (List Char)) : List Char :=
  '/' :: renderSegs segs

/-- Model of `FileSystemTools._validatePath`: resolve against the workspace and require
`fullPath.startsWith(PROJECT_WORKSPACE)`; otherwise throw `Access denied`. -/
def validatePath (filePath : List Char) : Except FsErr (List (List Char)) :=
  let segs := resolvePath filePath
  if PROJECT_WORKSPACE.isPrefixOf (renderAbs segs) then .ok segs
  else .error .accessDenied

/-- The workspace root as segments. -/
def ROOT_SEGS : List (List Char) := ["tmp".toList, "project".toList]

/-- Modelled from the spec: a resolved location is under the workspace root
when its segment path extends the segments of the root.  This is the containment
notion the claim asserts `_validatePath` enforces. -/
def underRootSpec (segs : List (List Char)) : Bool :=
  ROOT_SEGS.isPrefixOf segs

/-! ## Filesystem model

The filesystem of the machine is a rose tree rooted at `/`: a node is either a
file with content or a directory with an ordered list of named entries.
`fs.existsSync`, `mkdirSync {recursive}`, `writeFileSync`, `readFileSync`,
`unlinkSync` and `readdirSync` become functions over this tree, addressed by
the segment lists produced by `resolvePath`. -/

/-- A filesystem node: file with content, or directory with named entries. -/
inductive FsNode where
  | file (content : List Char)
  | dir (entries : List (List Char × FsNode))

instance : Inhabited FsNode := ⟨.dir []⟩

/-- Entry lookup by name in the entry list of a directory. -/
def entGet (es : List (List Char × FsNode)) (k : List Char) : Option FsNode :=
  match es with
  | [] => none
  | (k', v) :: rest => if k' = k then some v else entGet rest k

/-- Entry update/insertion by name (replaces in place or appends). -/
def entSet (es : List (List Char × FsNode)) (k : List Char) (v : FsNode) :
    List (List Char × FsNode) :=
  match es with
  | [] => [(k, v)]
  | (k', v') :: rest => if k' = k then (k, v) :: rest else (k', v') :: entSet rest k v

/-- Entry removal by name. -/
def entDel (es : List (List Char × FsNode)) (k : List Char) :
    List (List Char × FsNode) :=
  match es with
  | [] => []
  | (k', v') :: rest => if k' = k then rest else (k', v') :: entDel rest k

/-- Resolve a segment path to the node it names, if any. -/
def lookupNode : FsNode → List (List Char) → Option FsNode
  | t, [] => some t
  | .file _, _ :: _ => none
  | .dir es, s :: rest =>
      match entGet es s with
      | some sub => lookupNode sub rest
      | none => none

/-- Model of `mkdirSync(dir, { recursive: true })`: create every missing directory on
the path; `none` when a file blocks the way. -/
def mkdirp : FsNode → List (List Char) → Option FsNode
  | .file _, _ => none
  | .dir es, [] => some (.dir es)
  | .dir es, s :: rest =>
      match entGet es s with
      | some sub => (mkdirp sub rest).map (fun sub' => .dir (entSet es s sub'))
      | none => (mkdirp (.dir []) rest).map (fun sub' => .dir (es ++ [(s, sub')]))

/-- Model of `writeFileSync(path, content)`: parent directories must exist; the target
may be absent or an existing file (overwritten), not a directory. -/
def writeFile : FsNode → List (List Char) → List Char → Option FsNode
  | _, [], _ => none
  | .file _, _ :: _, _ => none
  | .dir es, [s], c =>
      match entGet es s with
      | some (.dir _) => none
      | _ => some (.dir (entSet es s (.file c)))
  | .dir es, s :: s' :: rest, c =>
      match entGet es s with
      | some sub => (writeFile sub (s' :: rest) c).map (fun sub' => .dir (entSet es s sub'))
      | none => none

/-- Model of `unlinkSync(path)`: remove a file entry (callers have already checked the
target exists and is a file). -/
def unlinkFile : FsNode → List (List Char) → Option FsNode
  | _, [] => none
  | .file _, _ :: _ => none
  | .dir es, [s] =>
      match entGet es s with
      | some (.file _) => some (.dir (entDel es s))
      | _ => none
  | .dir es, s :: s' :: rest =>
      match entGet es s with
      | some sub => (unlinkFile sub (s' :: rest)).map (fun sub' => .dir (entSet es s sub'))
      | none => none

/-- Result of a workspace operation: outcome plus the post-state of the
filesystem and the lock map. -/
structure FsResult where
  res : Except FsErr (List Char)
  root : FsNode
  locks : Locks

/-! ## Workspace operations (src/server.js lines 93-219) -/

/-- Model of `FileSystemTools.createFile(agentName, filePath, content)`: validate the
path, fail `AlreadyExists` if anything exists there, acquire the lock, create
missing parent directories when the parent does not exist, write the file, and
release the lock on every exit path of the `try`/`finally`. -/
def createFile (root : FsNode) (lk : Locks) (agentName : String)
    (filePath content : List Char) (now : Nat) : FsResult :=
  match validatePath filePath with
  | .error e => ⟨.error e, root, lk⟩
  | .ok segs =>
      if (lookupNode root segs).isSome then ⟨.error .alreadyExists, root, lk⟩
      else
        match acquireLock lk filePath agentName now with
        | (false, _) => ⟨.error .locked, root, lk⟩
        | (true, lk1) =>
            let dirSegs := segs.dropLast
            let prepared : Option FsNode :=
              if (lookupNode root dirSegs).isSome then some root
              else mkdirp root dirSegs
            match prepared.bind (fun r1 => writeFile r1 segs content) with
            | some r2 => ⟨.ok "created".toList, r2, (releaseLock lk1 filePath agentName).2⟩
            | none => ⟨.error .ioError, root, (releaseLock lk1 filePath agentName).2⟩

/-- Model of `FileSystemTools.readFile(filePath)`: validate, `NotFound` when absent,
read the content (a directory target makes `readFileSync` throw). -/
def readFile (root : FsNode) (filePath : List Char) : Except FsErr (List Char) :=
  match validatePath filePath with
  | .error e => .error e
  | .ok segs =>
      match lookupNode root segs with
      | none => .error .notFound
      | some (.file c) => .ok c
      | some (.dir _) => .error .ioError

/-- Model of `content.includes(oldStr)` — literal substring test. -/
def includesSub : List Char → List Char → Bool
  | [], old => old.isPrefixOf []
  | c :: rest, old => old.isPrefixOf (c :: rest) || includesSub rest old

/-- The backquote code point, matched by one of the dollar patterns. -/
def backquoteChar : Char := Char.ofNat 96

/-- The single-quote code point, matched by one of the dollar patterns. -/
def singleQuoteChar : Char := Char.ofNat 39

/-- ECMAScript `GetSubstitution` for a string pattern: in the replacement,
a doubled dollar yields a dollar, dollar-ampersand yields the matched text,
dollar-backquote the text before the match and dollar-quote the text after
it; a string pattern has no capture groups, so every other dollar sequence
(digits, a dollar before any other character, a trailing dollar) stays
literal. -/
def expandDollar (matched before after : List Char) : List Char → List Char
  | [] => []
  | [c] => [c]
  | c :: d :: rest =>
      if c = '$' then
        if d = '$' then '$' :: expandDollar matched before after rest
        else if d = '&' then matched ++ expandDollar matched before after rest
        else if d = backquoteChar then
          before ++ expandDollar matched before after rest
        else if d = singleQuoteChar then
          after ++ expandDollar matched before after rest
        else c :: expandDollar matched before after (d :: rest)
      else c :: expandDollar matched before after (d :: rest)

/-- Locate the first occurrence of `old` in `l`, returning the text before
and after it (the empty pattern matches at the start). -/
def splitFirst (l old : List Char) : Option (List Char × List Char) :=
  match l with
  | [] => if old = [] then some ([], []) else none
  | c :: rest =>
      if old.isPrefixOf (c :: rest) then some ([], (c :: rest).drop old.length)
      else (splitFirst rest old).map (fun p => (c :: p.1, p.2))

/-- JavaScript `content.replace(oldStr, newStr)` with a string pattern:
replace the first occurrence of `old` by the `GetSubstitution` expansion of
`new`, whose dollar patterns refer to the matched, preceding and following
text. -/
def replaceFirst (l old new : List Char) : List Char :=
  match splitFirst l old with
  | none => l
  | some (b, a) => b ++ expandDollar old b a new ++ a

/-- Model of `FileSystemTools.strReplace(agentName, filePath, oldStr, newStr)`:
validate, acquire the lock, then inside `try`: `NotFound` when the file is
absent, `NoMatch` (`String not found`) when `oldStr` is not a substring,
otherwise write the first-occurrence replacement; the lock is released on
every exit path of the `try`/`finally`. -/
def strReplace (root : FsNode) (lk : Locks) (agentName : String)
    (filePath oldStr newStr : List Char) (now : Nat) : FsResult :=
  match validatePath filePath with
  | .error e => ⟨.error e, root, lk⟩
  | .ok segs =>
      match acquireLock lk filePath agentName now with
      | (false, _) => ⟨.error .locked, root, lk⟩
      | (true, lk1) =>
          let lk2 := (releaseLock lk1 filePath agentName).2
          match lookupNode root segs with
          | none => ⟨.error .notFound, root, lk2⟩
          | some (.dir _) => ⟨.error .ioError, root, lk2⟩
          | some (.file content) =>
              if ¬ includesSub content oldStr then ⟨.error .noMatch, root, lk2⟩
              else
                match writeFile root segs (replaceFirst content oldStr newStr) with
                | some r2 => ⟨.ok "modified".toList, r2, lk2⟩
                | none => ⟨.error .ioError, root, lk2⟩

/-- Model of `FileSystemTools.deleteFile(agentName, filePath)`: validate, acquire the
lock, then inside `try`: `NotFound` when absent, `IsDirectory` when the path
names a directory, otherwise unlink; lock released on every exit path. -/
def deleteFile (root : FsNode) (lk : Locks) (agentName : String)
    (filePath : List Char) (now : Nat) : FsResult :=
  match validatePath filePath with
  | .error e => ⟨.error e, root, lk⟩
  | .ok segs =>
      match acquireLock lk filePath agentName now with
      | (false, _) => ⟨.error .locked, root, lk⟩
      | (true, lk1) =>
          let lk2 := (releaseLock lk1 filePath agentName).2
          match lookupNode root segs with
          | none => ⟨.error .notFound, root, lk2⟩
          | some (.dir _) => ⟨.error .isDirectory, root, lk2⟩
          | some (.file _) =>
              match unlinkFile root segs with
              | some r2 => ⟨.ok "deleted".toList, r2, lk2⟩
              | none => ⟨.error .ioError, root, lk2⟩

/-! Entry-list and tree lemmas. -/

/-! ## createFile / mkdir lemmas (for C10) -/

/-- No file stands in the way of `mkdir -p` along the path. -/
def pathCreatable : FsNode → List (List Char) → Bool
  | .file _, _ => false
  | .dir _, [] => true
  | .dir es, s :: rest =>
      match entGet es s with
      | some sub => pathCreatable sub rest
      | none => true

/-! ## listFiles (src/server.js lines 161-185) -/

/-- Model of `path.join(relativeDir, name)` for the shapes `listFiles` produces. -/
def pjoin (rel n : List Char) : List Char :=
  if rel = [] then n else rel ++ '/' :: n

mutual

/-- The recursive `getFiles` helper of `FileSystemTools.listFiles`: walk the
tree in entry order, recursing into directories in place and emitting the
joined relative path of every file. -/
def getFiles : FsNode → List Char → List (List Char)
  | .file _, _ => []
  | .dir es, rel => getFilesEntries es rel

/-- The entry loop of `getFiles` (`for (const file of files) …`). -/
def getFilesEntries : List (List Char × FsNode) → List Char → List (List Char)
  | [], _ => []
  | (n, sub) :: rest, rel =>
      (match sub with
       | .dir _ => getFiles sub (pjoin rel n)
       | .file _ => [pjoin rel n]) ++ getFilesEntries rest rel

end

/-- Model of `FileSystemTools.listFiles(dirPath)`: validate, return `[]` when the
directory does not exist, otherwise flatten recursively (a file target makes
`readdirSync` throw). -/
def listFiles (root : FsNode) (dirPath : List Char) :
    Except FsErr (List (List Char)) :=
  match validatePath dirPath with
  | .error e => .error e
  | .ok segs =>
      match lookupNode root segs with
      | none => .ok []
      | some (.file _) => .error .ioError
      | some (.dir es) => .ok (getFilesEntries es [])

mutual

/-- Specification-level file set of a node, as segment paths. -/
def filesOfNode : FsNode → List (List (List Char))
  | .file _ => [[]]
  | .dir es => filesOfEntries es

/-- Specification-level file set of an entry list, as segment paths. -/
def filesOfEntries : List (List Char × FsNode) → List (List (List Char))
  | [] => []
  | (n, sub) :: rest => (filesOfNode sub).map (n :: ·) ++ filesOfEntries rest

end

/-- A usable entry name: non-empty and without a path separator. -/
def goodName (n : List Char) : Bool :=
  decide (n ≠ [] ∧ '/' ∉ n)

mutual

/-- Well-formed node: every directory level has good, pairwise-distinct
entry names. -/
def wfNode : FsNode → Bool
  | .file _ => true
  | .dir es => wfEntries es

/-- Well-formed entry list. -/
def wfEntries : List (List Char × FsNode) → Bool
  | [] => true
  | (n, sub) :: rest =>
      goodName n && wfNode sub && !(rest.any (fun e => e.1 == n)) && wfEntries rest

end

/-- Lexicographic (code-point) comparison of rendered paths. -/
def lexLe : List Char → List Char → Bool
  | [], _ => true
  | _ :: _, [] => false
  | a :: as, b :: bs => if a < b then true else if a = b then lexLe as bs else false

/-- Is a path listing lexicographically sorted? -/
def sortedLex : List (List Char) → Bool
  | [] => true
  | [_] => true
  | a :: b :: rest => lexLe a b && sortedLex (b :: rest)

/-! ## C5 lemmas: flattening, goodness, uniqueness -/

/-- The trailing blob `"/" ++ n₁ ++ "/" ++ n₂ ++ …` of a joined path. -/
def tailBlob : List (List Char) → List Char
  | [] => []
  | n :: rest => '/' :: (n ++ tailBlob rest)

/-! ## Agent state machine (src/server.js lines 323-1448)

The per-agent state: transcript, inbox, talk budget, completion flag,
text-only streak and the pending-rerun flag.  Timestamps (`lastActivityTime`)
and the reentrancy guard `isProcessing` only matter to real-time scheduling;
turn scheduling is captured by `wouldRunTurn`, the condition of the
`_processQueue` loop. -/

/-- Transcript entry roles. -/
inductive Role where
  | system
  | user
  | assistant
  | tool
deriving DecidableEq, Repr

/-- A tool invocation as delivered by the completion service. -/
structure ToolCall where
  id : String
  fn : String
deriving DecidableEq, Repr

/-- One `conversationHistory` entry. -/
structure ChatMsg where
  role : Role
  content : String
  tool_call_id : Option String := none
  tool_calls : List ToolCall := []
deriving DecidableEq, Repr

/-- An inter-agent message held in an inbox. -/
structure InboxMsg where
  sender : String
  content : String
deriving DecidableEq, Repr

/-- A message on the bus, as consumed by `Agent.handleMessage`. -/
structure JsMessage where
  sender : String
  content : String
  queue : Bool := false
  autoRun : Bool := false
deriving DecidableEq, Repr

/-- Observable signals an agent emits on the message bus. -/
inductive AgentEvent where
  | agentComplete
  | agentResumed (reason : String)
  | statusThinking
  | statusComplete
  | routedMessage (target : String) (sender : String) (content : String) (queued : Bool)
  | inboxReceived
deriving DecidableEq, Repr

/-- Mutable agent state. -/
structure AgentState where
  name : String
  conversationHistory : List ChatMsg
  inbox : List InboxMsg
  talkCallCount : Nat
  maxTalkCalls : Nat
  isComplete : Bool
  textOnlyResponses : Nat
  needsAnotherRun : Bool
deriving DecidableEq, Repr

/-- The initial state built by the `Agent` constructor (`maxTalkCalls = 30`). -/
def mkAgent (name : String) : AgentState :=
  { name := name
    conversationHistory := []
    inbox := []
    talkCallCount := 0
    maxTalkCalls := 30
    isComplete := false
    textOnlyResponses := 0
    needsAnotherRun := false }

/-- Model of `Agent.complete()`: set the flag and emit the completed signals, only on
the first call. -/
def completeAgent (st : AgentState) : AgentState × List AgentEvent :=
  if st.isComplete then (st, [])
  else ({ st with isComplete := true }, [.agentComplete, .statusComplete])

/-- Model of `Agent._resumeFromCompletion(reason)`: a no-op unless currently complete;
otherwise clear the flag and emit resumed/thinking signals. -/
def resumeFromCompletion (st : AgentState) (reason : String) :
    AgentState × List AgentEvent :=
  if st.isComplete then
    ({ st with isComplete := false }, [.agentResumed reason, .statusThinking])
  else (st, [])

/-- Model of `Agent._queueMessage(message)`: push onto the inbox and broadcast. -/
def queueMessage (st : AgentState) (m : InboxMsg) : AgentState × List AgentEvent :=
  ({ st with inbox := st.inbox ++ [m] }, [.inboxReceived])

/-- Model of `Agent._deliverMessageImmediately(message)`: append a user entry to the
transcript; `autoRun` additionally requests another processing run. -/
def deliverMessageImmediately (st : AgentState) (sender content : String)
    (autoRun : Bool) : AgentState :=
  let st1 := { st with conversationHistory := st.conversationHistory ++
    [{ role := .user, content := "Message from " ++ sender ++ ": " ++ content }] }
  if autoRun then { st1 with needsAnotherRun := true } else st1

/-- Model of `Agent.handleMessage(message)`: queued messages are buffered (resuming a
Complete agent); immediate messages are appended to the transcript; in either
case a rerun is requested, and with no message a Complete agent returns
early. -/
def handleMessage (st : AgentState) (msg : Option JsMessage) :
    AgentState × List AgentEvent :=
  match msg with
  | some m =>
      if m.queue then
        let (st1, ev1) := queueMessage st ⟨m.sender, m.content⟩
        let (st2, ev2) :=
          if st1.isComplete then resumeFromCompletion st1 "message_received"
          else (st1, [])
        ({ st2 with needsAnotherRun := true }, ev1 ++ ev2)
      else
        let st1 := deliverMessageImmediately st m.sender m.content m.autoRun
        ({ st1 with needsAnotherRun := true }, [])
  | none =>
      if st.isComplete then (st, [])
      else ({ st with needsAnotherRun := true }, [])

/-- Whether `_processQueue` would actually execute a turn: its loop runs
while a rerun is pending and the agent is not complete. -/
def wouldRunTurn (st : AgentState) : Bool :=
  st.needsAnotherRun && !st.isComplete

/-- Model of `Agent.talk(agentName, message)`: refuse when the budget is exhausted;
otherwise count the call, route a queued message to the target, and force
completion when this call reaches the limit. -/
def talk (st : AgentState) (target msg : String) :
    AgentState × String × List AgentEvent :=
  if st.talkCallCount ≥ st.maxTalkCalls then
    (st, "Cannot talk: maximum talk calls reached", [])
  else
    let st1 := { st with talkCallCount := st.talkCallCount + 1 }
    let evs := [AgentEvent.routedMessage target st.name msg true]
    if st1.talkCallCount ≥ st1.maxTalkCalls then
      let (st2, evs2) := completeAgent st1
      (st2, "Message sent successfully to " ++ target, evs ++ evs2)
    else (st1, "Message sent successfully to " ++ target, evs)

/-- The budget check at the top of `_executeAgentTurn`: an exhausted budget
forces completion and aborts the turn (the `Bool` is whether the turn
proceeds). -/
def turnStartBudgetCheck (st : AgentState) : AgentState × Bool :=
  if st.talkCallCount ≥ st.maxTalkCalls then ((completeAgent st).1, false)
  else (st, true)

/-- First line of the system nudge injected after a single text-only turn. -/
def NUDGE_TEXT : String :=
  "You just provided a text response without calling any function."

/-- The branch of `_executeAgentTurn` taken on a response: tool calls reset
the text-only streak; otherwise the streak is incremented, completing the
agent at two and scheduling the nudge timer at one (the `Bool` is whether the
timer was scheduled). -/
def handleResponseStreak (st : AgentState) (toolCallCount : Nat) :
    AgentState × List AgentEvent × Bool :=
  if toolCallCount > 0 then
    ({ st with textOnlyResponses := 0 }, [], false)
  else
    let st1 := { st with textOnlyResponses := st.textOnlyResponses + 1 }
    if st1.textOnlyResponses ≥ 2 then
      let (st2, evs) := completeAgent st1
      (st2, evs, false)
    else (st1, [], true)

/-- The nudge timer body: fire only when the agent is still not complete. -/
def nudgeTimerFire (st : AgentState) : Option JsMessage :=
  if st.isComplete then none
  else some { sender := "system", content := NUDGE_TEXT }

/-- A backend agent that has already completed. -/
def completedBackend : AgentState :=
  { (mkAgent "backend") with isComplete := true }

/-- An immediate-delivery (non-queued) message with `autoRun`. -/
def pingImmediate : JsMessage :=
  { sender := "devops", content := "ping", queue := false, autoRun := true }

/-! ## Conversation control (src/server.js lines 1551-1662)

`/start-conversation` stores a record under the conversation id and a control
handle — the promise `resolve` function and the timeout id — under
`id + "_control"` in the same `conversations` map.  Nothing ever deletes the
control entry, not even session resolution.  `/stop-conversation` looks the
control up, clears the timer and calls `resolve('stopped_by_user')` (a no-op
on an already-resolved promise). -/

/-- A value in the `conversations` map: a conversation record or a control
handle (promise resolution state + timer liveness). -/
inductive StoreVal where
  | record (status : String)
  | control (resolvedWith : Option String) (timerActive : Bool)
deriving DecidableEq, Repr

/-- The `conversations` map. -/
abbrev ConvStore := List (String × StoreVal)

def storeGet (m : ConvStore) (k : String) : Option StoreVal :=
  match m with
  | [] => none
  | (k', v) :: rest => if k' = k then some v else storeGet rest k

def storeSet (m : ConvStore) (k : String) (v : StoreVal) : ConvStore :=
  match m with
  | [] => [(k, v)]
  | (k', v') :: rest => if k' = k then (k, v) :: rest else (k', v') :: storeSet rest k v

/-- Resolving a promise: the first resolution wins; later calls are no-ops. -/
def promiseResolve (v : Option String) (result : String) : Option String :=
  match v with
  | some r => some r
  | none => some result

/-- Model of `/start-conversation` registration: an `active` record plus a fresh
control handle with a pending promise and a live timeout. -/
def registerControl (store : ConvStore) (id : String) : ConvStore :=
  storeSet (storeSet store id (.record "active")) (id ++ "_control")
    (.control none true)

/-- Session resolution (`resolve('complete')`, `resolve('timeout')` or a
stop): the promise resolves once and the status of the stored record is updated;
the control entry stays in the map. -/
def resolveSession (store : ConvStore) (id : String) (result : String) : ConvStore :=
  match storeGet store (id ++ "_control") with
  | some (.control r _) =>
      storeSet (storeSet store id (.record result)) (id ++ "_control")
        (.control (promiseResolve r result) false)
  | _ => store

/-- Outcome of `POST /stop-conversation`. -/
inductive StopResp where
  | badRequest
  | success
  | notFound
deriving DecidableEq, Repr

/-- Model of `POST /stop-conversation`:400 without an id; 404 (`Conversation control
not found or already finished`) when no control entry exists; otherwise clear
the timer, resolve with `stopped_by_user` and report success. -/
def stopConversation (store : ConvStore) (cid : Option String) :
    StopResp × ConvStore :=
  match cid with
  | none => (.badRequest, store)
  | some id =>
      match storeGet store (id ++ "_control") with
      | some (.control resolved _) =>
          (.success, storeSet store (id ++ "_control")
            (.control (promiseResolve resolved "stopped_by_user") false))
      | _ => (.notFound, store)

/-! ## Tool-call turn processing and the protocol-repair safeguard
(src/server.js lines 937-1337)

The tool-call branch of `_executeAgentTurn`: the assistant entry is pushed,
each invocation is processed — most handlers `splice` their ToolResult at
`getToolResponseInsertionIndex()`, but `list_files` *pushes* at the end, and
`read_message` first pushes the drained inbox entry as a user message — then
the `finally` block synthesizes failure results for unprocessed ids,
re-verifies presence, and splices the deferred per-tool system messages.
Whether the tool execution of a handler throws is an input (the filesystem outcome
is irrelevant to transcript bookkeeping), as is a JSON-argument parse
failure; an unmapped tool name falls through every `else if` and records
nothing. -/

/-- Outcome of executing a mapped tool: normal return or thrown error. -/
inductive ExecOutcome where
  | ok
  | throws
deriving DecidableEq, Repr

/-- One invocation of the turn together with its execution fate. -/
structure CallExec where
  call : ToolCall
  parseError : Bool := false
  outcome : ExecOutcome := .ok
deriving DecidableEq, Repr

/-- State threaded through the turn: transcript, inbox, processed ids and
deferred system messages. -/
structure TurnSt where
  hist : List ChatMsg
  inbox : List InboxMsg
  processed : List String
  deferred : List ChatMsg
deriving DecidableEq, Repr

/-- Model of `array.splice(i, 0, x)` (an index beyond the end appends). -/
def splice (i : Nat) (x : ChatMsg) (l : List ChatMsg) : List ChatMsg :=
  l.take i ++ x :: l.drop i

/-- The assistant-message match of `getToolResponseInsertionIndex`: an
assistant entry whose `tool_calls` intersect the ids of the turn. -/
def matchesTurn (turnIds : List String) (m : ChatMsg) : Bool :=
  m.role == Role.assistant && m.tool_calls.any (fun tc => turnIds.contains tc.id)

/-- Last index (and entry) satisfying a predicate — the backwards scan of
`getToolResponseInsertionIndex`. -/
def lastMatch (p : ChatMsg → Bool) : List ChatMsg → Option (Nat × ChatMsg)
  | [] => none
  | m :: rest =>
      match lastMatch p rest with
      | some (i, x) => some (i + 1, x)
      | none => if p m then some (0, m) else none

/-- The counting loop: tool responses for the ids of the found assistant,
scanning forward and stopping at the next assistant entry. -/
def countToolResps (asstIds : List String) : List ChatMsg → Nat
  | [] => 0
  | m :: rest =>
      if m.role == Role.tool &&
          (match m.tool_call_id with
           | some i => asstIds.contains i
           | none => false) then
        1 + countToolResps asstIds rest
      else if m.role == Role.assistant then 0
      else countToolResps asstIds rest

/-- Model of `getToolResponseInsertionIndex()`: right after the matched assistant
entry plus the responses already recorded for it; at the end when no
assistant matches. -/
def insertionIdx (turnIds : List String) (hist : List ChatMsg) : Nat :=
  match lastMatch (matchesTurn turnIds) hist with
  | some (i, asst) =>
      i + 1 + countToolResps (asst.tool_calls.map (·.id)) (hist.drop (i + 1))
  | none => hist.length

/-- A ToolResult transcript entry. -/
def toolResp (id content : String) : ChatMsg :=
  { role := .tool, content := content, tool_call_id := some id }

/-- The synthesized-failure text of the safeguard. -/
def SYNTH_ERROR : String :=
  "ERROR: Tool call was not processed. This may be due to an internal error."

/-- A synthesized failure ToolResult. -/
def syntheticResp (id : String) : ChatMsg := toolResp id SYNTH_ERROR

/-- The deferred per-tool success system message. -/
def sysOk (fn : String) : ChatMsg :=
  { role := .system, content := fn ++ " succeeded. Proceed with next planned changes." }

/-- The transcript entry recording a delivered inter-agent message. -/
def userEntry (sender content : String) : ChatMsg :=
  { role := .user, content := "Message from " ++ sender ++ ": " ++ content }

/-- Splice a response at the computed insertion index. -/
def insertResp (turnIds : List String) (st : TurnSt) (m : ChatMsg) : TurnSt :=
  { st with hist := splice (insertionIdx turnIds st.hist) m st.hist }

/-- The tool names the dispatch chain handles. -/
def isMappedTool (fn : String) : Bool :=
  ["talk", "create_file", "read_file", "str_replace", "list_files",
   "delete_file", "read_message"].contains fn

/-- One iteration of the tool-call loop. -/
def processOneCall (turnIds : List String) (st : TurnSt) (c : CallExec) : TurnSt :=
  if c.parseError then
    let st1 := insertResp turnIds st
      (toolResp c.call.id "ERROR: JSON parsing failed")
    { st1 with processed := st1.processed ++ [c.call.id] }
  else if isMappedTool c.call.fn then
    match c.outcome with
    | .throws =>
        let st1 := insertResp turnIds st (toolResp c.call.id "ERROR: tool failed")
        { st1 with processed := st1.processed ++ [c.call.id] }
    | .ok =>
        if c.call.fn == "read_message" then
          match st.inbox.getLast? with
          | none =>
              let st1 := insertResp turnIds st
                (toolResp c.call.id "Inbox empty. No unread messages.")
              { st1 with processed := st1.processed ++ [c.call.id] }
          | some m =>
              let st0 := { st with
                inbox := st.inbox.dropLast
                hist := st.hist ++ [userEntry m.sender m.content] }
              let st1 := insertResp turnIds st0
                (toolResp c.call.id ("Message from " ++ m.sender ++ ": " ++ m.content))
              { st1 with
                processed := st1.processed ++ [c.call.id]
                deferred := st1.deferred ++ [sysOk "read_message"] }
        else if c.call.fn == "list_files" then
          { st with
            hist := st.hist ++ [toolResp c.call.id "[files]"]
            processed := st.processed ++ [c.call.id]
            deferred := st.deferred ++ [sysOk "list_files"] }
        else
          let st1 := insertResp turnIds st (toolResp c.call.id "ok")
          { st1 with
            processed := st1.processed ++ [c.call.id]
            deferred := st1.deferred ++ [sysOk c.call.fn] }
  else st

/-- The `finally` safeguard: synthesize a failure response for every
invocation id that was not processed. -/
def safeguardMissing (turnIds : List String) (st : TurnSt)
    (calls : List CallExec) : TurnSt :=
  calls.foldl (fun st c =>
    if st.processed.contains c.call.id then st
    else
      let st1 := insertResp turnIds st (syntheticResp c.call.id)
      { st1 with processed := st1.processed ++ [c.call.id] }) st

/-- Is a ToolResult with this id present in the transcript? -/
def hasRespIn (hist : List ChatMsg) (id : String) : Bool :=
  hist.any (fun m => m.role == Role.tool && m.tool_call_id == some id)

/-- The post-safeguard verification pass: force-add any id still absent from
the transcript. -/
def verifyInHistory (turnIds : List String) (st : TurnSt)
    (calls : List CallExec) : TurnSt :=
  calls.foldl (fun st c =>
    if hasRespIn st.hist c.call.id then st
    else { st with
      hist := splice (insertionIdx turnIds st.hist) (syntheticResp c.call.id) st.hist }) st

/-- Splice all deferred system messages at the insertion index computed once
after the safeguard. -/
def appendDeferred (turnIds : List String) (st : TurnSt) : TurnSt :=
  let idx := insertionIdx turnIds st.hist
  { st with hist := st.deferred.foldl (fun h m => splice idx m h) st.hist
            deferred := [] }

/-- The assistant entry pushed before the tool calls are processed. -/
def turnAssistant (calls : List CallExec) : ChatMsg :=
  { role := .assistant, content := "", tool_calls := calls.map (·.call) }

/-- The whole tool-call branch of one turn, ending with the safeguard, the
verification pass and the deferred system messages. -/
def processTurn (hist0 : List ChatMsg) (inbox : List InboxMsg)
    (calls : List CallExec) : TurnSt :=
  let turnIds := calls.map (·.call.id)
  let st0 : TurnSt := { hist := hist0 ++ [turnAssistant calls]
                        inbox := inbox, processed := [], deferred := [] }
  let st1 := calls.foldl (processOneCall turnIds) st0
  let st2 := safeguardMissing turnIds st1 calls
  let st3 := verifyInHistory turnIds st2 calls
  appendDeferred turnIds st3

/-- Count of ToolResult entries carrying a given correlation id. -/
def countResp (id : String) (hist : List ChatMsg) : Nat :=
  hist.countP (fun m => m.role == Role.tool && m.tool_call_id == some id)

/-- The per-turn transcript property asserted by the claim: exactly one ToolResult per
invocation id, contiguous right after the assistant entry and in invocation
order. -/
abbrev claimContiguousInOrder (hist0 : List ChatMsg) (calls : List CallExec)
    (final : List ChatMsg) : Prop :=
  (∀ c ∈ calls, countResp c.call.id final = 1) ∧
  ((final.drop (hist0.length + 1)).take calls.length).map (·.tool_call_id) =
    calls.map (fun c => some c.call.id) ∧
  ∀ m ∈ (final.drop (hist0.length + 1)).take calls.length, m.role = Role.tool

/-! ## C1 lemmas: splice arithmetic, insertion index, invariants -/

/-- The ToolResult-with-id predicate counted by `countResp` / `hasRespIn`. -/
def respPred (id : String) (m : ChatMsg) : Bool :=
  m.role == Role.tool && m.tool_call_id == some id

/-- The transcript-shape / response-count / deferred-role invariant carried
through a turn. -/
def TurnInv (hist0 : List ChatMsg) (calls : List CallExec) (st : TurnSt) : Prop :=
  (∃ tail, st.hist = hist0 ++ turnAssistant calls :: tail ∧
    ∀ m ∈ tail, m.role ≠ Role.assistant) ∧
  (∀ id ∈ calls.map (·.call.id), countResp id st.hist =
    if id ∈ st.processed then 1 else 0) ∧
  (∀ m ∈ st.deferred, m.role = Role.system)

/-- Shape of the transcript after a turn starts. -/
def HistShape (hist0 : List ChatMsg) (calls : List CallExec)
    (h : List ChatMsg) : Prop :=
  ∃ tail, h = hist0 ++ turnAssistant calls :: tail ∧
    ∀ m ∈ tail, m.role ≠ Role.assistant

/-- Turn-start transcript of the counterexample. -/
def cxHist0 : List ChatMsg := [{ role := .user, content := "start" }]

/-- Inbox of the counterexample: one queued message. -/
def cxInbox : List InboxMsg := [{ sender := "backend", content := "hi" }]

/-- The counterexample turn: `read_message` followed by `list_files`. -/
def cxCalls : List CallExec :=
  [{ call := { id := "c1", fn := "read_message" } },
   { call := { id := "c2", fn := "list_files" } }]

/-- A well-behaved one-call turn used by the C1 witness. -/
def wCall : CallExec := { call := { id := "w1", fn := "create_file" } }

/-- A one-call turn naming an unknown tool, used by the C1 witness. -/
def wMystery : CallExec := { call := { id := "w2", fn := "mystery" } }

/-- A workspace holding one file with content `aXc`, used to exhibit the
dollar-substitution behaviour of `strReplace`. -/
def cxDollarRoot : FsNode :=
  .dir [("tmp".toList, .dir [("project".toList,
    .dir [("f.txt".toList, .file "aXc".toList)])])]

/-! ## Theorems -/

theorem lockGet_lockSet_self (m : Locks) (k : List Char) (v : LockInfo) :
    lockGet (lockSet m k v) k = some v := by
  induction m with
  | nil => simp [lockGet, lockSet]
  | cons hd tl ih =>
      obtain ⟨k', v'⟩ := hd
      by_cases h : k' = k
      · simp [lockGet, lockSet, h]
      · simp [lockGet, lockSet, h, ih]

theorem lockGet_eq_none_of_not_mem (m : Locks) (k : List Char)
    (hk : k ∉ m.map Prod.fst) : lockGet m k = none := by
  induction m with
  | nil => simp [lockGet]
  | cons hd tl ih =>
      obtain ⟨k', v'⟩ := hd
      simp only [List.map_cons, List.mem_cons] at hk
      push_neg at hk
      have hne : k' ≠ k := fun he => hk.1 he.symm
      simp [lockGet, hne, ih hk.2]

theorem lockGet_lockDel_self (m : Locks) (k : List Char) (hwf : LocksWF m) :
    lockGet (lockDel m k) k = none := by
  induction m with
  | nil => simp [lockGet, lockDel]
  | cons hd tl ih =>
      obtain ⟨k', v'⟩ := hd
      have hwf' : LocksWF tl := (List.nodup_cons.mp hwf).2
      by_cases h : k' = k
      · subst h
        simp only [lockDel, if_pos rfl]
        exact lockGet_eq_none_of_not_mem tl k' (List.nodup_cons.mp hwf).1
      · simp [lockGet, lockDel, h, ih hwf']

theorem lockGet_lockDel_other (m : Locks) (k k' : List Char) (hne : k' ≠ k) :
    lockGet (lockDel m k) k' = lockGet m k' := by
  induction m with
  | nil => simp [lockGet, lockDel]
  | cons hd tl ih =>
      obtain ⟨k0, v0⟩ := hd
      by_cases h : k0 = k
      · subst h
        have h2 : k0 ≠ k' := fun he => hne (he ▸ rfl)
        simp [lockDel, lockGet, h2]
      · simp only [lockDel, if_neg h, lockGet]
        by_cases h2 : k0 = k'
        · simp [h2]
        · simp [h2, ih]

theorem acquireLock_of_free (locks : Locks) (p : List Char) (A : String) (now : Nat)
    (h : lockGet locks p = none) :
    acquireLock locks p A now = (true, lockSet locks p ⟨A, now⟩) := by
  simp [acquireLock, h]

theorem acquireLock_of_expired (locks : Locks) (p : List Char) (A : String) (now : Nat)
    (l : LockInfo) (h : lockGet locks p = some l)
    (hexp : LOCK_TIMEOUT ≤ now - l.timestamp) :
    acquireLock locks p A now = (true, lockSet locks p ⟨A, now⟩) := by
  simp only [acquireLock, h]
  rw [if_neg]
  rintro ⟨-, hlt⟩
  omega

theorem acquireLock_refresh (locks : Locks) (p : List Char) (A : String) (now : Nat)
    (l : LockInfo) (h : lockGet locks p = some l) (hown : l.agent = A) :
    acquireLock locks p A now = (true, lockSet locks p ⟨A, now⟩) := by
  simp only [acquireLock, h]
  rw [if_neg]
  rintro ⟨hne, -⟩
  exact hne hown

theorem acquireLock_locked_by_other (locks : Locks) (p : List Char) (A : String)
    (now : Nat) (l : LockInfo) (h : lockGet locks p = some l) (hown : l.agent ≠ A)
    (hlive : now - l.timestamp < LOCK_TIMEOUT) :
    acquireLock locks p A now = (false, locks) := by
  simp [acquireLock, h, hown, hlive]

/-- Claim C3. Lock acquire/release semantics of `FileLockManager`:
acquiring a path with no recorded lock, or an expired one (age at least
`LOCK_TIMEOUT`), or one owned by the same caller, succeeds and records or
refreshes the lock; acquiring a path whose non-expired lock is owned by a
different agent fails and leaves the lock map unchanged; `releaseLock`
removes the lock and returns `true` exactly when the recorded owner matches
the caller, and otherwise is a no-op returning `false`; acquiring after the
owner releases, or after the timeout elapses, succeeds. -/
theorem fileLockManager_acquire_release_spec
    (locks : Locks) (p : List Char) (A B : String) (now now' : Nat)
    (hwf : LocksWF locks) :
    (lockGet locks p = none →
      acquireLock locks p A now = (true, lockSet locks p ⟨A, now⟩) ∧
      lockGet (acquireLock locks p A now).2 p = some ⟨A, now⟩) ∧
    (∀ l, lockGet locks p = some l → LOCK_TIMEOUT ≤ now - l.timestamp →
      (acquireLock locks p A now).1 = true ∧
      lockGet (acquireLock locks p A now).2 p = some ⟨A, now⟩) ∧
    (∀ l, lockGet locks p = some l → l.agent = A →
      (acquireLock locks p A now).1 = true ∧
      lockGet (acquireLock locks p A now).2 p = some ⟨A, now⟩) ∧
    (∀ l, lockGet locks p = some l → l.agent ≠ A →
      now - l.timestamp < LOCK_TIMEOUT →
      acquireLock locks p A now = (false, locks)) ∧
    (∀ l, lockGet locks p = some l → l.agent = A →
      (releaseLock locks p A).1 = true ∧
      lockGet (releaseLock locks p A).2 p = none) ∧
    (∀ l, lockGet locks p = some l → l.agent ≠ A →
      releaseLock locks p A = (false, locks)) ∧
    (lockGet locks p = none → releaseLock locks p A = (false, locks)) ∧
    (∀ l, lockGet locks p = some l → l.agent = A →
      (acquireLock (releaseLock locks p A).2 p B now').1 = true) ∧
    (∀ l, lockGet locks p = some l → LOCK_TIMEOUT ≤ now - l.timestamp →
      (acquireLock locks p B now).1 = true) := by
  refine ⟨?_, ?_, ?_, ?_, ?_, ?_, ?_, ?_, ?_⟩
  · intro h
    exact ⟨acquireLock_of_free locks p A now h, by
      rw [acquireLock_of_free locks p A now h]; exact lockGet_lockSet_self _ _ _⟩
  · intro l h hexp
    simp [acquireLock_of_expired locks p A now l h hexp, lockGet_lockSet_self]
  · intro l h hown
    simp [acquireLock_refresh locks p A now l h hown, lockGet_lockSet_self]
  · intro l h hown hlive
    exact acquireLock_locked_by_other locks p A now l h hown hlive
  · intro l h hown
    have hrel : releaseLock locks p A = (true, lockDel locks p) := by
      simp [releaseLock, h, hown]
    rw [hrel]
    exact ⟨rfl, lockGet_lockDel_self locks p hwf⟩
  · intro l h hown
    simp [releaseLock, h, hown]
  · intro h
    simp [releaseLock, h]
  · intro l h hown
    have hrel : lockGet (releaseLock locks p A).2 p = none := by
      simp only [releaseLock, h, if_pos hown]
      exact lockGet_lockDel_self locks p hwf
    rw [acquireLock_of_free _ p B now' hrel]
  · intro l h hexp
    rw [acquireLock_of_expired locks p B now l h hexp]

/-- Witness for C3 at concrete inputs: a lock held by `backend` at time 0 is
non-expired at time 10000 (so `devops` is refused), released by `backend`,
then successfully acquired by `devops`. -/
theorem fileLockManager_acquire_release_spec_witness :
    let p := "server.txt".toList
    let locks : Locks := [(p, ⟨"backend", 0⟩)]
    acquireLock locks p "devops" 10000 = (false, locks) ∧
    (releaseLock locks p "backend").1 = true ∧
    (acquireLock (releaseLock locks p "backend").2 p "devops" 10000).1 = true := by
  intro p locks
  have h := fileLockManager_acquire_release_spec locks p "devops" "devops" 10000 10000
    (by decide)
  have hget : lockGet locks p = some ⟨"backend", 0⟩ := by decide
  refine ⟨h.2.2.2.1 ⟨"backend", 0⟩ hget (by decide) (by decide), ?_, ?_⟩
  · have h2 := fileLockManager_acquire_release_spec locks p "backend" "devops" 10000 10000
      (by decide)
    exact (h2.2.2.2.2.1 ⟨"backend", 0⟩ hget rfl).1
  · have h2 := fileLockManager_acquire_release_spec locks p "backend" "devops" 10000 10000
      (by decide)
    exact h2.2.2.2.2.2.2.2.1 ⟨"backend", 0⟩ hget rfl

/-- Claim C2. The path guard does not confine every operation to the workspace
root: `_validatePath` compares rendered strings with `startsWith`, so the
traversal path `"../project_evil/pwn"` — which resolves to
`/tmp/project_evil/pwn`, a location *outside* `/tmp/project` — passes
validation because the sibling directory name shares the `'/tmp/project'`
string prefix, contradicting the claim that any resolution escaping the root
fails with `AccessDenied`. -/
theorem validatePath_prefix_escape :
    validatePath "../project_evil/pwn".toList =
      .ok ["tmp".toList, "project_evil".toList, "pwn".toList] ∧
    renderAbs ["tmp".toList, "project_evil".toList, "pwn".toList] =
      "/tmp/project_evil/pwn".toList ∧
    underRootSpec (resolvePath "../project_evil/pwn".toList) = false :=
  ⟨rfl, rfl, rfl⟩

theorem entGet_entSet_self (es : List (List Char × FsNode)) (k : List Char) (v : FsNode) :
    entGet (entSet es k v) k = some v := by
  induction es with
  | nil => simp [entGet, entSet]
  | cons hd tl ih =>
      obtain ⟨k', v'⟩ := hd
      by_cases h : k' = k
      · simp [entGet, entSet, h]
      · simp [entGet, entSet, h, ih]

/-- Writing over an existing file succeeds and stores exactly the new content. -/
theorem writeFile_of_file (segs : List (List Char)) (root : FsNode)
    (c0 cNew : List Char) (h : lookupNode root segs = some (.file c0))
    (hne : segs ≠ []) :
    ∃ r2, writeFile root segs cNew = some r2 ∧
      lookupNode r2 segs = some (.file cNew) := by
  induction segs generalizing root with
  | nil => exact absurd rfl hne
  | cons s rest ih =>
      cases root with
      | file c => simp [lookupNode] at h
      | dir es =>
          cases rest with
          | nil =>
              simp only [lookupNode] at h
              cases hg : entGet es s with
              | none => rw [hg] at h; simp at h
              | some sub =>
                  rw [hg] at h
                  cases sub with
                  | dir es2 => simp at h
                  | file cc =>
                      refine ⟨.dir (entSet es s (.file cNew)), ?_, ?_⟩
                      · simp [writeFile, hg]
                      · simp [lookupNode, entGet_entSet_self]
          | cons s' rest' =>
              simp only [lookupNode] at h
              cases hg : entGet es s with
              | none => rw [hg] at h; simp at h
              | some sub =>
                  rw [hg] at h
                  obtain ⟨sub', hw, hl⟩ := ih sub h (by simp)
                  refine ⟨.dir (entSet es s sub'), ?_, ?_⟩
                  · simp [writeFile, hg, hw]
                  · simp [lookupNode, entGet_entSet_self, hl]

theorem isPrefixOf_append_self (a b : List Char) : a.isPrefixOf (a ++ b) = true := by
  induction a with
  | nil => simp [List.isPrefixOf]
  | cons c a2 ih => simp [List.isPrefixOf, ih]

theorem includesSub_of_isPrefixOf (l old : List Char)
    (h : old.isPrefixOf l = true) : includesSub l old = true := by
  cases l with
  | nil => simpa [includesSub] using h
  | cons c rest => simp [includesSub, h]

theorem includesSub_cons (c : Char) (rest old : List Char)
    (h : includesSub rest old = true) : includesSub (c :: rest) old = true := by
  simp [includesSub, h]

/-- A decomposition of the content around `old` makes `includes` true. -/
theorem includesSub_of_decomp (pre old suf : List Char) :
    includesSub (pre ++ old ++ suf) old = true := by
  induction pre with
  | nil =>
      simp only [List.nil_append]
      exact includesSub_of_isPrefixOf _ _
        (isPrefixOf_append_self old suf)
  | cons c pre' ih =>
      simpa using includesSub_cons c (pre' ++ old ++ suf) old ih

/-- The split around the first occurrence is the minimal decomposition. -/
theorem splitFirst_first_occurrence (pre old suf : List Char)
    (hne : old ≠ [])
    (hfirst : ∀ i, i < pre.length → ¬ old.isPrefixOf ((pre ++ old ++ suf).drop i)) :
    splitFirst (pre ++ old ++ suf) old = some (pre, suf) := by
  induction pre with
  | nil =>
      cases old with
      | nil => exact absurd rfl hne
      | cons o old' =>
          simp only [List.nil_append, List.cons_append]
          rw [splitFirst]
          rw [if_pos]
          · simp only [← List.cons_append]
            rw [List.drop_left]
          · exact isPrefixOf_append_self (o :: old') suf
  | cons c pre' ih =>
      have h0 := hfirst 0 (by simp)
      simp only [List.drop_zero] at h0
      simp only [List.cons_append]
      rw [splitFirst, if_neg (by simpa using h0)]
      rw [ih (fun i hi => by simpa using hfirst (i + 1) (by simpa using hi))]
      rfl

/-- `replaceFirst` rewrites exactly the first occurrence, inserting the
`GetSubstitution` expansion of the replacement. -/
theorem replaceFirst_first_occurrence (pre old suf new : List Char)
    (hne : old ≠ [])
    (hfirst : ∀ i, i < pre.length → ¬ old.isPrefixOf ((pre ++ old ++ suf).drop i)) :
    replaceFirst (pre ++ old ++ suf) old new =
      pre ++ expandDollar old pre suf new ++ suf := by
  unfold replaceFirst
  rw [splitFirst_first_occurrence pre old suf hne hfirst]

/-- A replacement without a dollar sign expands to itself literally. -/
theorem expandDollar_no_dollar (matched before after : List Char) :
    ∀ new : List Char, '$' ∉ new →
      expandDollar matched before after new = new := by
  intro new
  induction new with
  | nil => intro _; rfl
  | cons c rest ih =>
      intro h
      have hc : ¬ c = '$' := fun he => h (he ▸ List.mem_cons_self _ _)
      cases rest with
      | nil => rfl
      | cons d rest2 =>
          rw [expandDollar, if_neg hc,
            ih (fun hm => h (List.mem_cons_of_mem _ hm))]

/-- Absence of the substring means `includes` is false… and conversely;
the bridge used to relate the `NoMatch` guard to decompositions. -/
theorem includesSub_false_no_decomp (content old : List Char)
    (h : includesSub content old = false) :
    ∀ pre suf, content ≠ pre ++ old ++ suf := by
  intro pre suf hc
  rw [hc, includesSub_of_decomp] at h
  cases h

/-- Claim C4 (counterexample). `String.prototype.replace` processes dollar
patterns in the replacement string: replacing `X` by the replacement
`"$&$&"` in a file holding `aXc` writes `aXXc` — the matched text doubled —
rather than the literal insertion the claim predicts, so the clause saying
the first occurrence is replaced by `new_string` fails for replacements
containing dollar patterns. -/
theorem strReplace_dollar_substitution :
    (strReplace cxDollarRoot [] "backend" "f.txt".toList "X".toList
      "$&$&".toList 5).res = .ok "modified".toList ∧
    lookupNode (strReplace cxDollarRoot [] "backend" "f.txt".toList "X".toList
      "$&$&".toList 5).root ["tmp".toList, "project".toList, "f.txt".toList] =
      some (.file "aXXc".toList) ∧
    "aXXc".toList ≠ "a".toList ++ "$&$&".toList ++ "c".toList := by
  refine ⟨rfl, rfl, by decide⟩

/-- Claim C4 (amended). `strReplace` on an absent file fails `NotFound`;
with an `old_string` that is not a substring it fails `NoMatch` and leaves
the filesystem unchanged; when `old_string` occurs, exactly the first
occurrence is replaced by the `GetSubstitution` expansion of `new_string`
(dollar patterns active, no capture groups) and the rest of the content is
preserved — in particular, a `new_string` without a dollar sign is inserted
literally. -/
theorem strReplace_spec (root : FsNode) (lk : Locks) (A : String)
    (p oldStr newStr : List Char) (now : Nat) (segs : List (List Char))
    (hval : validatePath p = .ok segs)
    (hacq : (acquireLock lk p A now).1 = true) :
    (lookupNode root segs = none →
      (strReplace root lk A p oldStr newStr now).res = .error .notFound ∧
      (strReplace root lk A p oldStr newStr now).root = root) ∧
    (∀ content, lookupNode root segs = some (.file content) →
      includesSub content oldStr = false →
      (strReplace root lk A p oldStr newStr now).res = .error .noMatch ∧
      (strReplace root lk A p oldStr newStr now).root = root) ∧
    (∀ pre suf, oldStr ≠ [] → segs ≠ [] →
      lookupNode root segs = some (.file (pre ++ oldStr ++ suf)) →
      (∀ i, i < pre.length → ¬ oldStr.isPrefixOf ((pre ++ oldStr ++ suf).drop i)) →
      (strReplace root lk A p oldStr newStr now).res = .ok "modified".toList ∧
      lookupNode (strReplace root lk A p oldStr newStr now).root segs =
        some (.file (pre ++ expandDollar oldStr pre suf newStr ++ suf))) ∧
    (('$' : Char) ∉ newStr →
      ∀ pre suf, oldStr ≠ [] → segs ≠ [] →
      lookupNode root segs = some (.file (pre ++ oldStr ++ suf)) →
      (∀ i, i < pre.length → ¬ oldStr.isPrefixOf ((pre ++ oldStr ++ suf).drop i)) →
      (strReplace root lk A p oldStr newStr now).res = .ok "modified".toList ∧
      lookupNode (strReplace root lk A p oldStr newStr now).root segs =
        some (.file (pre ++ newStr ++ suf))) := by
  rcases hpair : acquireLock lk p A now with ⟨b, lk1⟩
  rw [hpair] at hacq
  simp only at hacq
  subst hacq
  have hmain : ∀ pre suf, oldStr ≠ [] → segs ≠ [] →
      lookupNode root segs = some (.file (pre ++ oldStr ++ suf)) →
      (∀ i, i < pre.length → ¬ oldStr.isPrefixOf ((pre ++ oldStr ++ suf).drop i)) →
      (strReplace root lk A p oldStr newStr now).res = .ok "modified".toList ∧
      lookupNode (strReplace root lk A p oldStr newStr now).root segs =
        some (.file (pre ++ expandDollar oldStr pre suf newStr ++ suf)) := by
    intro pre suf hne hsegs h hfirst
    obtain ⟨r2, hw, hl⟩ := writeFile_of_file segs root _
      (replaceFirst (pre ++ oldStr ++ suf) oldStr newStr) h hsegs
    have hrep := replaceFirst_first_occurrence pre oldStr suf newStr hne hfirst
    rw [hrep] at hw hl
    have hinc : includesSub (pre ++ oldStr ++ suf) oldStr = true :=
      includesSub_of_decomp pre oldStr suf
    simp only [List.append_assoc] at hinc hrep hw hl
    constructor
    · simp [strReplace, hval, hpair, h, hinc, hrep, hw]
    · simp [strReplace, hval, hpair, h, hinc, hrep, hw, hl]
  refine ⟨?_, ?_, hmain, ?_⟩
  · intro h
    simp [strReplace, hval, hpair, h]
  · intro content h hninc
    simp [strReplace, hval, hpair, h, hninc]
  · intro hnd pre suf hne hsegs h hfirst
    have h3 := hmain pre suf hne hsegs h hfirst
    rw [expandDollar_no_dollar oldStr pre suf newStr hnd] at h3
    exact h3

/-- Witness for C4: replacing `"world"` by `"there"` in a file containing
`"hello world"` yields `"hello there"`; replacing an absent string fails
`NoMatch`; replacing in an absent file fails `NotFound`. -/
theorem strReplace_spec_witness :
    let root : FsNode := .dir [("tmp".toList, .dir [("project".toList,
      .dir [("f.txt".toList, .file "hello world".toList)])])]
    let segs := ["tmp".toList, "project".toList, "f.txt".toList]
    (strReplace root [] "backend" "f.txt".toList "world".toList "there".toList 5).res =
      .ok "modified".toList ∧
    lookupNode (strReplace root [] "backend" "f.txt".toList "world".toList
      "there".toList 5).root segs = some (.file "hello there".toList) ∧
    (strReplace root [] "backend" "f.txt".toList "zzz".toList "q".toList 5).res =
      .error .noMatch ∧
    (strReplace root [] "backend" "missing.txt".toList "a".toList "b".toList 5).res =
      .error .notFound := by
  intro root segs
  have hval : validatePath "f.txt".toList = .ok segs := by rfl
  have hacq : (acquireLock [] "f.txt".toList "backend" 5).1 = true := by rfl
  have h := strReplace_spec root [] "backend" "f.txt".toList "world".toList
    "there".toList 5 segs hval hacq
  have hlk : lookupNode root segs = some (.file ("hello ".toList ++ "world".toList ++ [])) := by
    rfl
  have h3 := h.2.2.2 (by decide) "hello ".toList [] (by decide) (by decide) hlk
    (by decide)
  refine ⟨?_, ?_, ?_, ?_⟩
  · have := h3.1
    simpa using this
  · have := h3.2
    simpa using this
  · have h2 := (strReplace_spec root [] "backend" "f.txt".toList "zzz".toList
      "q".toList 5 segs hval (by rfl)).2.1 "hello world".toList (by rfl) (by rfl)
    exact h2.1
  · have hval2 : validatePath "missing.txt".toList =
        .ok ["tmp".toList, "project".toList, "missing.txt".toList] := by rfl
    have h2 := (strReplace_spec root [] "backend" "missing.txt".toList "a".toList
      "b".toList 5 _ hval2 (by rfl)).1 (by rfl)
    exact h2.1

/-- Lookup distributes over path concatenation. -/
theorem lookupNode_append (p q : List (List Char)) (t : FsNode) :
    lookupNode t (p ++ q) = (lookupNode t p).bind (fun n => lookupNode n q) := by
  induction p generalizing t with
  | nil => simp [lookupNode]
  | cons s p' ih =>
      cases t with
      | file c => simp [lookupNode]
      | dir es =>
          cases hg : entGet es s with
          | none => simp [lookupNode, hg]
          | some sub => simp [lookupNode, hg, ih]

theorem pathCreatable_lookup_dir (p : List (List Char)) (t n : FsNode)
    (hpc : pathCreatable t p = true) (hl : lookupNode t p = some n) :
    ∃ es, n = .dir es := by
  induction p generalizing t with
  | nil =>
      cases t with
      | file c => simp [pathCreatable] at hpc
      | dir es =>
          simp only [lookupNode, Option.some_inj] at hl
          exact ⟨es, hl.symm⟩
  | cons s p' ih =>
      cases t with
      | file c => simp [pathCreatable] at hpc
      | dir es =>
          cases hg : entGet es s with
          | none => simp [lookupNode, hg] at hl
          | some sub =>
              simp only [lookupNode, hg] at hl
              simp only [pathCreatable, hg] at hpc
              exact ih sub hpc hl

theorem entGet_append_self (es : List (List Char × FsNode)) (s : List Char)
    (v : FsNode) (h : entGet es s = none) :
    entGet (es ++ [(s, v)]) s = some v := by
  induction es with
  | nil => simp [entGet]
  | cons hd tl ih =>
      obtain ⟨k, w⟩ := hd
      by_cases hk : k = s
      · simp [entGet, hk] at h
      · simp only [entGet, List.cons_append, if_neg hk] at h ⊢
        exact ih h

/-- Running `mkdir -p` below a fresh directory creates the whole chain, ending in an
empty directory. -/
theorem mkdirp_fresh (rest : List (List Char)) :
    ∃ t', mkdirp (.dir []) rest = some t' ∧ lookupNode t' rest = some (.dir []) := by
  induction rest with
  | nil => exact ⟨.dir [], rfl, rfl⟩
  | cons r rest' ih =>
      obtain ⟨t', hmk, hl⟩ := ih
      refine ⟨.dir [(r, t')], ?_, ?_⟩
      · simp [mkdirp, entGet, hmk]
      · simp [lookupNode, entGet, hl]

/-- When the target directory is absent but creatable, `mkdirp` succeeds and
the node at the target is a fresh empty directory. -/
theorem mkdirp_creates (p : List (List Char)) (t : FsNode)
    (hpc : pathCreatable t p = true) (habs : lookupNode t p = none) :
    ∃ t', mkdirp t p = some t' ∧ lookupNode t' p = some (.dir []) := by
  induction p generalizing t with
  | nil => simp [lookupNode] at habs
  | cons s rest ih =>
      cases t with
      | file c => simp [pathCreatable] at hpc
      | dir es =>
          cases hg : entGet es s with
          | some sub =>
              simp only [pathCreatable, hg] at hpc
              simp only [lookupNode, hg] at habs
              obtain ⟨sub', hmk, hl⟩ := ih sub hpc habs
              refine ⟨.dir (entSet es s sub'), ?_, ?_⟩
              · simp [mkdirp, hg, hmk]
              · simp [lookupNode, entGet_entSet_self, hl]
          | none =>
              obtain ⟨sub', hmk, hl⟩ := mkdirp_fresh rest
              refine ⟨.dir (es ++ [(s, sub')]), ?_, ?_⟩
              · simp [mkdirp, hg, hmk]
              · simp [lookupNode, entGet_append_self es s sub' hg, hl]

/-- Writing a fresh file under an existing directory chain succeeds and the
new node holds exactly the given content. -/
theorem writeFile_create (ds : List (List Char)) (t : FsNode)
    (last : List Char) (c : List Char) (es : List (List Char × FsNode))
    (hdir : lookupNode t ds = some (.dir es)) (hfree : entGet es last = none) :
    ∃ t', writeFile t (ds ++ [last]) c = some t' ∧
      lookupNode t' (ds ++ [last]) = some (.file c) := by
  induction ds generalizing t with
  | nil =>
      simp only [lookupNode, Option.some_inj] at hdir
      subst hdir
      refine ⟨.dir (entSet es last (.file c)), ?_, ?_⟩
      · simp only [List.nil_append, writeFile, hfree]
      · simp [lookupNode, entGet_entSet_self]
  | cons s ds' ih =>
      cases t with
      | file c0 => simp [lookupNode] at hdir
      | dir es0 =>
          cases hg : entGet es0 s with
          | none => simp [lookupNode, hg] at hdir
          | some sub =>
              simp only [lookupNode, hg] at hdir
              obtain ⟨sub', hw, hl⟩ := ih sub hdir
              refine ⟨.dir (entSet es0 s sub'), ?_, ?_⟩
              · cases ds' with
                | nil =>
                    have hw' : writeFile sub [last] c = some sub' := by simpa using hw
                    simp [writeFile, hg, hw']
                | cons d ds'' =>
                    have hw' : writeFile sub (d :: (ds'' ++ [last])) c = some sub' := by
                      simpa using hw
                    simp [writeFile, hg, hw']
              · cases ds' with
                | nil => simpa [lookupNode, entGet_entSet_self] using hl
                | cons d ds'' => simpa [lookupNode, entGet_entSet_self] using hl

/-- Claim C10. For a path that validates under the workspace root and names
nothing yet, `createFile` creates any missing intermediate parent directories
and then writes the file, so it does not fail merely because a parent
directory is absent; on success the file exists with exactly the given
content. -/
theorem createFile_spec (root : FsNode) (lk : Locks) (A : String)
    (p content : List Char) (now : Nat) (segs : List (List Char))
    (hval : validatePath p = .ok segs)
    (hsegs : segs ≠ [])
    (habs : lookupNode root segs = none)
    (hpc : pathCreatable root segs.dropLast = true)
    (hacq : (acquireLock lk p A now).1 = true) :
    (createFile root lk A p content now).res = .ok "created".toList ∧
    lookupNode (createFile root lk A p content now).root segs =
      some (.file content) := by
  rcases hpair : acquireLock lk p A now with ⟨b, lk1⟩
  rw [hpair] at hacq
  simp only at hacq
  subst hacq
  have hsplit : segs.dropLast ++ [segs.getLast hsegs] = segs :=
    List.dropLast_append_getLast hsegs
  set ds := segs.dropLast with hds
  set last := segs.getLast hsegs with hlast
  have hwrite : ∃ prep r2,
      (if (lookupNode root ds).isSome then some root else mkdirp root ds) = some prep ∧
      writeFile prep segs content = some r2 ∧
      lookupNode r2 segs = some (.file content) := by
    cases hdir : lookupNode root ds with
    | some n =>
        obtain ⟨es, hn⟩ := pathCreatable_lookup_dir ds root n hpc hdir
        subst hn
        have hfree : entGet es last = none := by
          have h2 := lookupNode_append ds [last] root
          rw [hsplit, habs, hdir] at h2
          cases hg : entGet es last with
          | none => rfl
          | some x => simp [lookupNode, hg] at h2
        obtain ⟨r2, hw, hl⟩ := writeFile_create ds root last content es hdir hfree
        rw [hsplit] at hw hl
        exact ⟨root, r2, by simp [hdir], hw, hl⟩
    | none =>
        obtain ⟨t', hmk, hl'⟩ := mkdirp_creates ds root hpc hdir
        obtain ⟨r2, hw, hl⟩ := writeFile_create ds t' last content [] hl' rfl
        rw [hsplit] at hw hl
        exact ⟨t', r2, by simp [hdir, hmk], hw, hl⟩
  obtain ⟨prep, r2, hprep, hw, hl⟩ := hwrite
  constructor
  · simp [createFile, hval, habs, hpair, ← hds, hprep, hw]
  · simp [createFile, hval, habs, hpair, ← hds, hprep, hw, hl]

/-- Witness for C10: creating `backend/api/server.js` in an empty workspace
creates the two missing parent directories and stores the exact content. -/
theorem createFile_spec_witness :
    let root : FsNode := .dir [("tmp".toList, .dir [("project".toList, .dir [])])]
    let segs := ["tmp".toList, "project".toList, "backend".toList,
      "api".toList, "server.js".toList]
    (createFile root [] "backend" "backend/api/server.js".toList "x = 1".toList 7).res =
      .ok "created".toList ∧
    lookupNode (createFile root [] "backend" "backend/api/server.js".toList
      "x = 1".toList 7).root segs = some (.file "x = 1".toList) := by
  intro root segs
  exact createFile_spec root [] "backend" "backend/api/server.js".toList
    "x = 1".toList 7 segs (by rfl) (by decide) (by rfl) (by rfl) (by rfl)

/-- The flattened output is the segment-path set joined from the left. -/
theorem getFilesEntries_eq_filesOf (es : List (List Char × FsNode)) (rel : List Char) :
    getFilesEntries es rel =
      (filesOfEntries es).map (fun segs => segs.foldl pjoin rel) := by
  match es with
  | [] => simp [getFilesEntries, filesOfEntries]
  | (n, sub) :: rest =>
      cases sub with
      | file c =>
          simp only [getFilesEntries, filesOfEntries, filesOfNode,
            List.map_append, List.map_map]
          rw [getFilesEntries_eq_filesOf rest rel]
          simp [pjoin]
      | dir es' =>
          simp only [getFilesEntries, getFiles, filesOfEntries, filesOfNode,
            List.map_append, List.map_map]
          rw [getFilesEntries_eq_filesOf rest rel,
            getFilesEntries_eq_filesOf es' (pjoin rel n)]
          rfl
termination_by sizeOf es

theorem foldl_pjoin_acc (t : List (List Char)) (a : List Char) (ha : a ≠ []) :
    t.foldl pjoin a = a ++ tailBlob t := by
  induction t generalizing a with
  | nil => simp [tailBlob]
  | cons m t' ih =>
      rw [List.foldl_cons, tailBlob]
      rw [show pjoin a m = a ++ '/' :: m from by simp [pjoin, ha]]
      rw [ih (a ++ '/' :: m) (by simp)]
      simp

/-- Top-level join: the first segment is the accumulator seed. -/
theorem foldl_pjoin_top (n : List Char) (t : List (List Char)) (hn : n ≠ []) :
    (n :: t).foldl pjoin [] = n ++ tailBlob t := by
  rw [List.foldl_cons, show pjoin [] n = n from by simp [pjoin]]
  exact foldl_pjoin_acc t n hn

theorem tailBlob_shape (t : List (List Char)) :
    t = [] ∧ tailBlob t = [] ∨ ∃ x, tailBlob t = '/' :: x := by
  cases t with
  | nil => exact Or.inl ⟨rfl, rfl⟩
  | cons n rest => exact Or.inr ⟨n ++ tailBlob rest, rfl⟩

/-- Tokenization is unambiguous: slash-free prefixes followed by a slash (or
nothing) determine the split. -/
theorem token_split (a : List Char) : ∀ (b t u : List Char),
    '/' ∉ a → '/' ∉ b →
    (t = [] ∨ ∃ r, t = '/' :: r) → (u = [] ∨ ∃ r, u = '/' :: r) →
    a ++ t = b ++ u → a = b ∧ t = u := by
  induction a with
  | nil =>
      intro b t u _ hb ht hu he
      cases b with
      | nil => exact ⟨rfl, he⟩
      | cons c b' =>
          exfalso
          rcases ht with rfl | ⟨r, rfl⟩
          · simp at he
          · simp only [List.nil_append, List.cons_append, List.cons.injEq] at he
            apply hb
            rw [← he.1]
            exact List.mem_cons_self _ _
  | cons c a' ih =>
      intro b t u ha hb ht hu he
      cases b with
      | nil =>
          exfalso
          rcases hu with rfl | ⟨r, rfl⟩
          · simp at he
          · simp only [List.cons_append, List.nil_append, List.cons.injEq] at he
            apply ha
            rw [he.1]
            exact List.mem_cons_self _ _
      | cons c2 b' =>
          simp only [List.cons_append, List.cons.injEq] at he
          obtain ⟨rfl, he2⟩ := he
          obtain ⟨h1, h2⟩ := ih b' t u (fun hm => ha (List.mem_cons_of_mem _ hm))
            (fun hm => hb (List.mem_cons_of_mem _ hm)) ht hu he2
          exact ⟨by rw [h1], h2⟩

theorem goodName_spec (n : List Char) (h : goodName n = true) :
    n ≠ [] ∧ '/' ∉ n := by
  simpa [goodName] using h

/-- Distinct good segment lists join to distinct path strings. -/
theorem tailBlob_inj (t1 : List (List Char)) : ∀ t2 : List (List Char),
    (∀ n ∈ t1, goodName n = true) → (∀ n ∈ t2, goodName n = true) →
    tailBlob t1 = tailBlob t2 → t1 = t2 := by
  induction t1 with
  | nil =>
      intro t2 _ _ he
      cases t2 with
      | nil => rfl
      | cons m r => simp [tailBlob] at he
  | cons n r1 ih =>
      intro t2 g1 g2 he
      cases t2 with
      | nil => simp [tailBlob] at he
      | cons m r2 =>
          simp only [tailBlob, List.cons.injEq, true_and] at he
          obtain ⟨hn, h1⟩ := goodName_spec n (g1 n (List.mem_cons_self _ _))
          obtain ⟨hm, h2⟩ := goodName_spec m (g2 m (List.mem_cons_self _ _))
          obtain ⟨hnm, hblob⟩ := token_split n m (tailBlob r1) (tailBlob r2) h1 h2
            (by rcases tailBlob_shape r1 with ⟨-, h⟩ | ⟨x, h⟩ <;> [exact Or.inl h;
              exact Or.inr ⟨x, h⟩])
            (by rcases tailBlob_shape r2 with ⟨-, h⟩ | ⟨x, h⟩ <;> [exact Or.inl h;
              exact Or.inr ⟨x, h⟩]) he
          have hr := ih r2 (fun x hx => g1 x (List.mem_cons_of_mem _ hx))
            (fun x hx => g2 x (List.mem_cons_of_mem _ hx)) hblob
          rw [hnm, hr]

/-- Joining with `pjoin` from the empty relative path is injective on
non-empty lists of good names. -/
theorem join_inj (l1 l2 : List (List Char))
    (h1 : l1 ≠ []) (g1 : ∀ n ∈ l1, goodName n = true)
    (h2 : l2 ≠ []) (g2 : ∀ n ∈ l2, goodName n = true)
    (he : l1.foldl pjoin [] = l2.foldl pjoin []) : l1 = l2 := by
  cases l1 with
  | nil => exact absurd rfl h1
  | cons n1 t1 =>
      cases l2 with
      | nil => exact absurd rfl h2
      | cons n2 t2 =>
          obtain ⟨hn1, hs1⟩ := goodName_spec n1 (g1 n1 (List.mem_cons_self _ _))
          obtain ⟨hn2, hs2⟩ := goodName_spec n2 (g2 n2 (List.mem_cons_self _ _))
          rw [foldl_pjoin_top n1 t1 hn1, foldl_pjoin_top n2 t2 hn2] at he
          obtain ⟨hn, hblob⟩ := token_split n1 n2 (tailBlob t1) (tailBlob t2) hs1 hs2
            (by rcases tailBlob_shape t1 with ⟨-, h⟩ | ⟨x, h⟩ <;> [exact Or.inl h;
              exact Or.inr ⟨x, h⟩])
            (by rcases tailBlob_shape t2 with ⟨-, h⟩ | ⟨x, h⟩ <;> [exact Or.inl h;
              exact Or.inr ⟨x, h⟩]) he
          have ht := tailBlob_inj t1 t2 (fun x hx => g1 x (List.mem_cons_of_mem _ hx))
            (fun x hx => g2 x (List.mem_cons_of_mem _ hx)) hblob
          rw [hn, ht]

/-- Every spec-level path of a well-formed entry list is non-empty and made
of good names. -/
theorem filesOfEntries_good (es : List (List Char × FsNode))
    (hwf : wfEntries es = true) :
    ∀ segs ∈ filesOfEntries es, segs ≠ [] ∧ ∀ n ∈ segs, goodName n = true := by
  match es with
  | [] => intro segs hs; simp [filesOfEntries] at hs
  | (n, sub) :: rest =>
      intro segs hs
      simp only [filesOfEntries, List.mem_append] at hs
      have hwf' : ((goodName n = true ∧ wfNode sub = true) ∧
          ∀ (a : List Char) (b : FsNode), (a, b) ∈ rest → ¬a = n) ∧
          wfEntries rest = true := by
        simpa [wfEntries, Bool.and_eq_true] using hwf
      rcases hs with hs | hs
      · obtain ⟨s', hs', rfl⟩ := List.mem_map.mp hs
        refine ⟨by simp, ?_⟩
        intro m hm
        rcases List.mem_cons.mp hm with rfl | hm'
        · exact hwf'.1.1.1
        · cases sub with
          | file c =>
              simp only [filesOfNode, List.mem_singleton] at hs'
              subst hs'
              simp at hm'
          | dir es' =>
              simp only [filesOfNode] at hs'
              have hsub : wfNode (FsNode.dir es') = true := hwf'.1.1.2
              have := filesOfEntries_good es' (by simpa [wfNode] using hsub) s' hs'
              exact this.2 m hm'
      · exact filesOfEntries_good rest hwf'.2 segs hs
termination_by sizeOf es

/-- Every spec-level path starts with the name of one of the entries. -/
theorem filesOfEntries_head (es : List (List Char × FsNode)) :
    ∀ segs ∈ filesOfEntries es,
      ∃ n sub tail, (n, sub) ∈ es ∧ segs = n :: tail := by
  induction es with
  | nil => intro segs hs; simp [filesOfEntries] at hs
  | cons hd rest ih =>
      obtain ⟨n, sub⟩ := hd
      intro segs hs
      simp only [filesOfEntries, List.mem_append] at hs
      rcases hs with hs | hs
      · obtain ⟨s', _, rfl⟩ := List.mem_map.mp hs
        exact ⟨n, sub, s', List.mem_cons_self _ _, rfl⟩
      · obtain ⟨n', sub', tail, hm, he⟩ := ih segs hs
        exact ⟨n', sub', tail, List.mem_cons_of_mem _ hm, he⟩

/-- The spec-level path set of a well-formed entry list has no duplicates. -/
theorem filesOfEntries_nodup (es : List (List Char × FsNode))
    (hwf : wfEntries es = true) : (filesOfEntries es).Nodup := by
  match es with
  | [] => simp [filesOfEntries]
  | (n, sub) :: rest =>
      have hwf' : ((goodName n = true ∧ wfNode sub = true) ∧
          ∀ (a : List Char) (b : FsNode), (a, b) ∈ rest → ¬a = n) ∧
          wfEntries rest = true := by
        simpa [wfEntries, Bool.and_eq_true] using hwf
      rw [filesOfEntries, List.nodup_append]
      refine ⟨?_, filesOfEntries_nodup rest hwf'.2, ?_⟩
      · apply List.Nodup.map
        · intro a b hab
          simpa using hab
        · cases sub with
          | file c => simp [filesOfNode]
          | dir es' =>
              simp only [filesOfNode]
              exact filesOfEntries_nodup es' (by simpa [wfNode] using hwf'.1.1.2)
      · intro x hx hx'
        obtain ⟨s', -, rfl⟩ := List.mem_map.mp hx
        obtain ⟨n', sub', tail, hm, he⟩ := filesOfEntries_head rest (n :: s') hx'
        have hne : n' ≠ n := hwf'.1.2 n' sub' hm
        simp only [List.cons.injEq] at he
        exact hne he.1.symm
termination_by sizeOf es

/-- Claim C5 (counterexample). `listFiles` is not lexicographically ordered:
on a workspace holding directory `a` (with file `z`) and file `a.txt` — entry
names sorted at every level, the most favourable readdir order — the listing
is `["a/z", "a.txt"]`, but lexicographically `"a.txt" < "a/z"` (`'.' < '/'`),
so the flattened sequence is out of order. -/
theorem listFiles_not_lexicographic :
    listFiles (.dir [("tmp".toList, .dir [("project".toList, .dir
        [("a".toList, .dir [("z".toList, .file "1".toList)]),
         ("a.txt".toList, .file "2".toList)])])]) ".".toList =
      .ok ["a/z".toList, "a.txt".toList] ∧
    sortedLex ["a/z".toList, "a.txt".toList] = false ∧
    sortedLex ["a".toList, "a.txt".toList] = true ∧
    lexLe "a.txt".toList "a/z".toList = true :=
  ⟨rfl, rfl, rfl, rfl⟩

/-- Claim C5 (amended). `listFiles` on an absent directory returns the empty
sequence; on a directory it returns the depth-first flattening of the tree in
entry order (directories recursed in place, directories themselves excluded),
and for a well-formed tree that listing contains exactly the joined
spec-level file paths, each exactly once — but it is not lexicographically
sorted in general. -/
theorem listFiles_spec (root : FsNode) (dirPath : List Char)
    (segs : List (List Char)) (hval : validatePath dirPath = .ok segs) :
    (lookupNode root segs = none → listFiles root dirPath = .ok []) ∧
    (∀ es, lookupNode root segs = some (.dir es) →
      listFiles root dirPath = .ok (getFilesEntries es []) ∧
      (wfEntries es = true →
        (getFilesEntries es []).Nodup ∧
        (∀ q, q ∈ getFilesEntries es [] ↔
          ∃ sl, sl ∈ filesOfEntries es ∧ q = sl.foldl pjoin []))) := by
  constructor
  · intro h
    simp [listFiles, hval, h]
  · intro es h
    refine ⟨by simp [listFiles, hval, h], ?_⟩
    intro hwf
    constructor
    · rw [getFilesEntries_eq_filesOf]
      refine List.Nodup.map_on ?_ (filesOfEntries_nodup es hwf)
      intro x hx y hy he
      obtain ⟨hx1, hx2⟩ := filesOfEntries_good es hwf x hx
      obtain ⟨hy1, hy2⟩ := filesOfEntries_good es hwf y hy
      exact join_inj x y hx1 hx2 hy1 hy2 he
    · intro q
      rw [getFilesEntries_eq_filesOf]
      constructor
      · intro hq
        obtain ⟨sl, hsl, rfl⟩ := List.mem_map.mp hq
        exact ⟨sl, hsl, rfl⟩
      · rintro ⟨sl, hsl, rfl⟩
        exact List.mem_map.mpr ⟨sl, hsl, rfl⟩

/-- Witness for C5 at concrete inputs: listing a missing directory yields
`[]`, and listing a populated well-formed tree yields each nested file path
exactly once. -/
theorem listFiles_spec_witness :
    listFiles (.dir [("tmp".toList, .dir [("project".toList, .dir [])])])
      "ghost".toList = .ok [] ∧
    (getFilesEntries [("a".toList, FsNode.dir [("z".toList, FsNode.file "1".toList)]),
      ("a.txt".toList, FsNode.file "2".toList)] []).Nodup := by
  constructor
  · exact (listFiles_spec (.dir [("tmp".toList, .dir [("project".toList, .dir [])])])
      "ghost".toList ["tmp".toList, "project".toList, "ghost".toList] rfl).1 rfl
  · have h := (listFiles_spec (.dir [("tmp".toList, .dir [("project".toList, .dir
        [("a".toList, .dir [("z".toList, .file "1".toList)]),
         ("a.txt".toList, .file "2".toList)])])]) ".".toList
        ["tmp".toList, "project".toList] rfl).2
        [("a".toList, FsNode.dir [("z".toList, FsNode.file "1".toList)]),
         ("a.txt".toList, FsNode.file "2".toList)] rfl
    exact (h.2 (by decide)).1

/-- Claim C6. Text-only streak discipline: a response with at least one tool
invocation resets `textOnlyResponses` to `0`; a tool-call-free response
increments it; when the incremented count reaches `2` the agent completes;
when it equals `1` the agent stays active, the nudge timer is scheduled, and
the timer delivers the system nudge exactly when the agent is still not
complete at firing time. -/
theorem textOnly_streak_spec (st : AgentState) (n : Nat) :
    (0 < n → (handleResponseStreak st n).1.textOnlyResponses = 0 ∧
      (handleResponseStreak st n).1.isComplete = st.isComplete) ∧
    ((handleResponseStreak st 0).1.textOnlyResponses = st.textOnlyResponses + 1) ∧
    (2 ≤ st.textOnlyResponses + 1 →
      (handleResponseStreak st 0).1.isComplete = true) ∧
    (st.textOnlyResponses + 1 = 1 →
      (handleResponseStreak st 0).1.isComplete = st.isComplete ∧
      (handleResponseStreak st 0).1.textOnlyResponses = 1 ∧
      (handleResponseStreak st 0).2.2 = true) ∧
    (∀ st' : AgentState, st'.isComplete = false →
      nudgeTimerFire st' = some { sender := "system", content := NUDGE_TEXT }) ∧
    (∀ st' : AgentState, st'.isComplete = true → nudgeTimerFire st' = none) := by
  refine ⟨?_, ?_, ?_, ?_, ?_, ?_⟩
  · intro hn
    simp [handleResponseStreak, hn]
  · by_cases h2 : st.textOnlyResponses + 1 ≥ 2 <;>
      cases hc : st.isComplete <;>
        simp [handleResponseStreak, completeAgent, h2, hc]
  · intro h2
    cases hc : st.isComplete <;>
      simp [handleResponseStreak, completeAgent, h2, hc]
  · intro h1
    have h0 : st.textOnlyResponses = 0 := by omega
    simp [handleResponseStreak, h0, completeAgent]
  · intro st' h
    simp [nudgeTimerFire, h]
  · intro st' h
    simp [nudgeTimerFire, h]

/-- Witness for C6: a fresh agent takes one text-only turn (streak 1, nudge
scheduled, timer fires), then a second (completes); a tool-call turn resets
the streak. -/
theorem textOnly_streak_spec_witness :
    let st0 := mkAgent "frontend"
    let st1 := (handleResponseStreak st0 0).1
    (handleResponseStreak st0 0).2.2 = true ∧
    st1.textOnlyResponses = 1 ∧
    st1.isComplete = false ∧
    nudgeTimerFire st1 = some { sender := "system", content := NUDGE_TEXT } ∧
    (handleResponseStreak st1 0).1.isComplete = true ∧
    (handleResponseStreak st1 3).1.textOnlyResponses = 0 := by
  intro st0 st1
  have h0 := textOnly_streak_spec st0 0
  have h1 := textOnly_streak_spec st1 3
  refine ⟨(h0.2.2.2.1 rfl).2.2, (h0.2.2.2.1 rfl).2.1, ?_, ?_, ?_, (h1.1 (by omega)).1⟩
  · have := (h0.2.2.2.1 rfl).1
    simpa using this
  · exact h0.2.2.2.2.1 st1 (by
      have := (h0.2.2.2.1 rfl).1
      simpa using this)
  · exact (textOnly_streak_spec st1 0).2.2.1 (by
      have : st1.textOnlyResponses = 1 := (h0.2.2.2.1 rfl).2.1
      omega)

/-- Claim C7 (counterexample). An immediate-delivery message to a Complete
agent does *not* reactivate it: the transcript records the message but the
agent stays Complete, no `resumed` signal fires, and no turn is scheduled —
the clause saying this holds regardless of delivery mode fails. -/
theorem handleMessage_immediate_no_reactivation :
    (handleMessage completedBackend (some pingImmediate)).1.isComplete = true ∧
    (handleMessage completedBackend (some pingImmediate)).2 = [] ∧
    wouldRunTurn (handleMessage completedBackend (some pingImmediate)).1 = false ∧
    (handleMessage completedBackend (some pingImmediate)).1.conversationHistory =
      [{ role := .user, content := "Message from devops: ping" }] :=
  ⟨rfl, rfl, rfl, rfl⟩

/-- Claim C7 (amended). Reactivation of a Complete agent happens through
*queued* delivery: a queued Message is buffered in the inbox, flips
Complete → Thinking exactly once firing the `resumed` signal, and schedules a
turn; `_resumeFromCompletion` on a non-Complete agent changes nothing; an
immediate-delivery Message appends to the transcript and sets the rerun flag,
but leaves a Complete agent Complete — no `resumed` signal and no turn. -/
theorem handleMessage_reactivation_spec (st : AgentState) (m : JsMessage) :
    (st.isComplete = true → m.queue = true →
      (handleMessage st (some m)).1.isComplete = false ∧
      (handleMessage st (some m)).1.inbox = st.inbox ++ [⟨m.sender, m.content⟩] ∧
      (handleMessage st (some m)).2 =
        [.inboxReceived, .agentResumed "message_received", .statusThinking] ∧
      wouldRunTurn (handleMessage st (some m)).1 = true) ∧
    (st.isComplete = false →
      resumeFromCompletion st "message_received" = (st, [])) ∧
    (st.isComplete = true → m.queue = false →
      (handleMessage st (some m)).1.isComplete = true ∧
      (handleMessage st (some m)).2 = [] ∧
      wouldRunTurn (handleMessage st (some m)).1 = false ∧
      (handleMessage st (some m)).1.conversationHistory = st.conversationHistory ++
        [⟨.user, "Message from " ++ m.sender ++ ": " ++ m.content, none, []⟩]) ∧
    (st.isComplete = false → m.queue = true →
      (handleMessage st (some m)).1.isComplete = false ∧
      (handleMessage st (some m)).2 = [.inboxReceived] ∧
      wouldRunTurn (handleMessage st (some m)).1 = true) := by
  refine ⟨?_, ?_, ?_, ?_⟩
  · intro hc hq
    simp [handleMessage, hq, queueMessage, hc, resumeFromCompletion, wouldRunTurn]
  · intro hc
    simp [resumeFromCompletion, hc]
  · intro hc hq
    cases hAuto : m.autoRun <;>
      simp [handleMessage, hq, deliverMessageImmediately, hAuto, hc, wouldRunTurn]
  · intro hc hq
    simp [handleMessage, hq, queueMessage, hc, resumeFromCompletion, wouldRunTurn]

/-- Witness for C7 (amended): a queued message to a Complete agent resumes
it exactly once. -/
theorem handleMessage_reactivation_spec_witness :
    let st : AgentState := { (mkAgent "backend") with isComplete := true }
    let m : JsMessage := { sender := "devops", content := "hi", queue := true }
    (handleMessage st (some m)).1.isComplete = false ∧
    (handleMessage st (some m)).2 =
      [.inboxReceived, .agentResumed "message_received", .statusThinking] ∧
    resumeFromCompletion (handleMessage st (some m)).1 "message_received" =
      ((handleMessage st (some m)).1, []) := by
  intro st m
  have h := (handleMessage_reactivation_spec st m).1 rfl rfl
  refine ⟨h.1, h.2.2.1, ?_⟩
  exact (handleMessage_reactivation_spec (handleMessage st (some m)).1 m).2.1 h.1

/-- Claim C8. Talk budget: with the budget exhausted, `talk` returns an error,
routes nothing and changes no state; the call that reaches the limit still
routes its message but forces the agent Complete; a turn begun with the
budget already exhausted completes the agent without proceeding; the
constructor budget is 30. -/
theorem talk_budget_spec (st : AgentState) (target msg : String) :
    (st.talkCallCount ≥ st.maxTalkCalls →
      talk st target msg = (st, "Cannot talk: maximum talk calls reached", [])) ∧
    (st.talkCallCount + 1 = st.maxTalkCalls → st.isComplete = false →
      (talk st target msg).1.isComplete = true ∧
      (talk st target msg).1.talkCallCount = st.maxTalkCalls ∧
      (talk st target msg).2.2 = [.routedMessage target st.name msg true,
        .agentComplete, .statusComplete]) ∧
    (st.talkCallCount + 1 < st.maxTalkCalls →
      (talk st target msg).1.isComplete = st.isComplete ∧
      (talk st target msg).1.talkCallCount = st.talkCallCount + 1 ∧
      (talk st target msg).2.2 = [.routedMessage target st.name msg true]) ∧
    (st.talkCallCount ≥ st.maxTalkCalls →
      (turnStartBudgetCheck st).1.isComplete = true ∧
      (turnStartBudgetCheck st).2 = false) ∧
    (mkAgent "backend").maxTalkCalls = 30 := by
  refine ⟨?_, ?_, ?_, ?_, rfl⟩
  · intro h
    simp [talk, h]
  · intro h hc
    have hlt : ¬ st.talkCallCount ≥ st.maxTalkCalls := by omega
    simp [talk, hlt, completeAgent, hc, h]
  · intro h
    have hlt : ¬ st.talkCallCount ≥ st.maxTalkCalls := by omega
    have hlt2 : ¬ st.talkCallCount + 1 ≥ st.maxTalkCalls := by omega
    simp [talk, hlt, hlt2]
  · intro h
    cases hc : st.isComplete <;> simp [turnStartBudgetCheck, h, completeAgent, hc]

/-- Witness for C8: an agent at 29 of 30 calls completes on its 30th `talk`,
after which further `talk` calls are refused without routing. -/
theorem talk_budget_spec_witness :
    let st : AgentState := { (mkAgent "backend") with talkCallCount := 29 }
    let st1 := (talk st "devops" "last call").1
    st1.isComplete = true ∧
    st1.talkCallCount = 30 ∧
    (talk st "devops" "last call").2.2 =
      [.routedMessage "devops" "backend" "last call" true,
       .agentComplete, .statusComplete] ∧
    talk st1 "devops" "again" =
      (st1, "Cannot talk: maximum talk calls reached", []) ∧
    (turnStartBudgetCheck st1).2 = false := by
  intro st st1
  have h := (talk_budget_spec st "devops" "last call").2.1 rfl rfl
  have h2 := (talk_budget_spec st1 "devops" "again").1 (by decide)
  refine ⟨h.1, h.2.1, h.2.2, h2, ?_⟩
  exact ((talk_budget_spec st1 "devops" "again").2.2.2.1 (by decide)).2

theorem storeGet_storeSet_self (m : ConvStore) (k : String) (v : StoreVal) :
    storeGet (storeSet m k v) k = some v := by
  induction m with
  | nil => simp [storeGet, storeSet]
  | cons hd tl ih =>
      obtain ⟨k', v'⟩ := hd
      by_cases h : k' = k
      · simp [storeGet, storeSet, h]
      · simp [storeGet, storeSet, h, ih]

/-- Claim C9 (counterexample). Stopping an already-resolved session does *not*
report "Conversation control not found": the control entry is never removed
from the map, so stopping a session that resolved `complete` still returns
success. -/
theorem stop_after_resolution_reports_success :
    (stopConversation (resolveSession (registerControl [] "123") "123" "complete")
      (some "123")).1 = .success ∧
    (stopConversation (resolveSession (registerControl [] "123") "123" "complete")
      (some "123")).1 ≠ .notFound :=
  ⟨rfl, by intro h; exact StopResp.noConfusion (rfl.trans h)⟩

/-- Claim C9 (amended). Stopping with a missing id is rejected; stopping an
*unknown* id (no registered control) reports the not-found failure and
changes nothing; stopping a session whose control exists reports success, and
is an idempotent no-op on the resolution value when the session has already
resolved (the recorded result survives; only the timer is cleared); stopping
an unresolved session resolves it with `stopped_by_user`. -/
theorem stopConversation_spec (store : ConvStore) (id : String) :
    (stopConversation store none = (.badRequest, store)) ∧
    (storeGet store (id ++ "_control") = none →
      stopConversation store (some id) = (.notFound, store)) ∧
    (∀ s, storeGet store (id ++ "_control") = some (.record s) →
      stopConversation store (some id) = (.notFound, store)) ∧
    (∀ r t, storeGet store (id ++ "_control") = some (.control (some r) t) →
      (stopConversation store (some id)).1 = .success ∧
      storeGet (stopConversation store (some id)).2 (id ++ "_control") =
        some (.control (some r) false)) ∧
    (∀ t, storeGet store (id ++ "_control") = some (.control none t) →
      (stopConversation store (some id)).1 = .success ∧
      storeGet (stopConversation store (some id)).2 (id ++ "_control") =
        some (.control (some "stopped_by_user") false)) := by
  refine ⟨rfl, ?_, ?_, ?_, ?_⟩
  · intro h
    simp [stopConversation, h]
  · intro s h
    simp [stopConversation, h]
  · intro r t h
    simp [stopConversation, h, promiseResolve, storeGet_storeSet_self]
  · intro t h
    simp [stopConversation, h, promiseResolve, storeGet_storeSet_self]

/-- Witness for C9 (amended) at concrete inputs: stopping an unknown id on an
empty store 404s; stopping a registered, unresolved session succeeds and
records `stopped_by_user`; a second stop is a no-op on that value. -/
theorem stopConversation_spec_witness :
    stopConversation [] (some "999") = (.notFound, []) ∧
    (stopConversation (registerControl [] "7") (some "7")).1 = .success ∧
    storeGet (stopConversation (registerControl [] "7") (some "7")).2
      ("7" ++ "_control") = some (.control (some "stopped_by_user") false) ∧
    storeGet (stopConversation
        (stopConversation (registerControl [] "7") (some "7")).2 (some "7")).2
      ("7" ++ "_control") = some (.control (some "stopped_by_user") false) := by
  refine ⟨(stopConversation_spec [] "999").2.1 rfl, ?_, ?_, ?_⟩
  · exact ((stopConversation_spec (registerControl [] "7") "7").2.2.2.2 true
      (by rfl)).1
  · exact ((stopConversation_spec (registerControl [] "7") "7").2.2.2.2 true
      (by rfl)).2
  · exact ((stopConversation_spec
      (stopConversation (registerControl [] "7") (some "7")).2 "7").2.2.2.1
      "stopped_by_user" false (by rfl)).2

theorem countP_splice (p : ChatMsg → Bool) (i : Nat) (x : ChatMsg)
    (l : List ChatMsg) :
    (splice i x l).countP p = l.countP p + if p x then 1 else 0 := by
  unfold splice
  rw [List.countP_append, List.countP_cons]
  conv_rhs => rw [← List.take_append_drop i l, List.countP_append]
  omega

theorem mem_splice_iff (i : Nat) (x : ChatMsg) (l : List ChatMsg) (m : ChatMsg) :
    m ∈ splice i x l ↔ m = x ∨ m ∈ l := by
  unfold splice
  conv_rhs => rw [← List.take_append_drop i l]
  simp only [List.mem_append, List.mem_cons]
  tauto

theorem splice_append_ge (pre tail : List ChatMsg) (i : Nat) (x : ChatMsg)
    (hi : pre.length ≤ i) :
    splice i x (pre ++ tail) = pre ++ splice (i - pre.length) x tail := by
  unfold splice
  rw [List.take_append_eq_append_take, List.drop_append_eq_append_drop]
  rw [List.take_of_length_le hi, List.drop_eq_nil_of_le hi]
  simp

theorem lastMatch_none (p : ChatMsg → Bool) (l : List ChatMsg)
    (h : ∀ m ∈ l, p m = false) : lastMatch p l = none := by
  induction l with
  | nil => rfl
  | cons m rest ih =>
      rw [lastMatch, ih (fun x hx => h x (List.mem_cons_of_mem _ hx))]
      simp [h m (List.mem_cons_self _ _)]

theorem lastMatch_append (p : ChatMsg → Bool) (pre : List ChatMsg) (a : ChatMsg)
    (tail : List ChatMsg) (hp : p a = true) (ht : ∀ m ∈ tail, p m = false) :
    lastMatch p (pre ++ a :: tail) = some (pre.length, a) := by
  induction pre with
  | nil =>
      rw [List.nil_append, lastMatch, lastMatch_none p tail ht]
      simp [hp]
  | cons m pre' ih =>
      rw [List.cons_append, lastMatch, ih]
      rfl

theorem matchesTurn_false_of_role (turnIds : List String) (m : ChatMsg)
    (h : m.role ≠ Role.assistant) : matchesTurn turnIds m = false := by
  unfold matchesTurn
  simp [h]

theorem matchesTurn_turnAssistant (calls : List CallExec) (hne : calls ≠ []) :
    matchesTurn (calls.map (·.call.id)) (turnAssistant calls) = true := by
  cases calls with
  | nil => exact absurd rfl hne
  | cons c rest =>
      unfold matchesTurn turnAssistant
      rw [Bool.and_eq_true, List.any_eq_true]
      refine ⟨by simp, c.call, by simp, ?_⟩
      exact List.elem_eq_true_of_mem (by simp)

theorem insertionIdx_ge (turnIds : List String) (pre : List ChatMsg)
    (a : ChatMsg) (tail : List ChatMsg) (hp : matchesTurn turnIds a = true)
    (ht : ∀ m ∈ tail, m.role ≠ Role.assistant) :
    pre.length + 1 ≤ insertionIdx turnIds (pre ++ a :: tail) := by
  unfold insertionIdx
  rw [lastMatch_append (matchesTurn turnIds) pre a tail hp
    (fun m hm => matchesTurn_false_of_role turnIds m (ht m hm))]
  exact Nat.le_add_right (pre.length + 1) _

theorem countResp_eq_countP (id : String) (h : List ChatMsg) :
    countResp id h = h.countP (respPred id) := rfl

theorem respPred_toolResp (id cid s : String) :
    respPred id (toolResp cid s) = (cid == id) := by
  simp [respPred, toolResp]

theorem respPred_syntheticResp (id cid : String) :
    respPred id (syntheticResp cid) = (cid == id) := by
  simp [syntheticResp, respPred, toolResp]

theorem respPred_userEntry (id s c : String) :
    respPred id (userEntry s c) = false := by
  simp [respPred, userEntry]

theorem respPred_sysOk (id fn : String) :
    respPred id (sysOk fn) = false := by
  simp [respPred, sysOk]

theorem respPred_turnAssistant (id : String) (calls : List CallExec) :
    respPred id (turnAssistant calls) = false := by
  simp [respPred, turnAssistant]

theorem insertionIdx_ge_of_shape (hist0 : List ChatMsg) (calls : List CallExec)
    (hne : calls ≠ []) (h : List ChatMsg)
    (hsh : HistShape hist0 calls h) :
    hist0.length + 1 ≤ insertionIdx (calls.map (·.call.id)) h := by
  obtain ⟨tail, rfl, ht⟩ := hsh
  exact insertionIdx_ge _ hist0 _ tail (matchesTurn_turnAssistant calls hne) ht

theorem shape_splice (hist0 : List ChatMsg) (calls : List CallExec)
    (h : List ChatMsg) (x : ChatMsg) (i : Nat)
    (hsh : HistShape hist0 calls h)
    (hx : x.role ≠ Role.assistant)
    (hi : hist0.length + 1 ≤ i) :
    HistShape hist0 calls (splice i x h) := by
  obtain ⟨tail, rfl, ht⟩ := hsh
  have hform : hist0 ++ turnAssistant calls :: tail =
      (hist0 ++ [turnAssistant calls]) ++ tail := by simp
  rw [hform, splice_append_ge _ _ _ _ (by simpa using hi)]
  refine ⟨splice (i - (hist0 ++ [turnAssistant calls]).length) x tail, by simp, ?_⟩
  intro m hm
  rcases (mem_splice_iff _ _ _ _).mp hm with rfl | hm'
  · exact hx
  · exact ht m hm'

theorem shape_append (hist0 : List ChatMsg) (calls : List CallExec)
    (h : List ChatMsg) (y : ChatMsg)
    (hsh : HistShape hist0 calls h)
    (hy : y.role ≠ Role.assistant) :
    HistShape hist0 calls (h ++ [y]) := by
  obtain ⟨tail, rfl, ht⟩ := hsh
  refine ⟨tail ++ [y], by simp, ?_⟩
  intro m hm
  rcases List.mem_append.mp hm with hm' | hm'
  · exact ht m hm'
  · rw [List.mem_singleton.mp hm']
    exact hy

theorem countResp_splice (id : String) (i : Nat) (x : ChatMsg)
    (l : List ChatMsg) :
    countResp id (splice i x l) =
      countResp id l + if respPred id x then 1 else 0 := by
  rw [countResp_eq_countP, countResp_eq_countP]
  exact countP_splice (respPred id) i x l

theorem countResp_append (id : String) (l l' : List ChatMsg) :
    countResp id (l ++ l') = countResp id l + countResp id l' := by
  rw [countResp_eq_countP, countResp_eq_countP, countResp_eq_countP]
  exact List.countP_append _ _ _

theorem hasRespIn_of_countResp_pos (h : List ChatMsg) (id : String)
    (hc : 0 < countResp id h) : hasRespIn h id = true := by
  rw [countResp_eq_countP, List.countP_pos_iff] at hc
  obtain ⟨m, hm, hp⟩ := hc
  unfold hasRespIn
  rw [List.any_eq_true]
  exact ⟨m, hm, hp⟩

/-- Splicing the ToolResult of the current call at the insertion index, marking it
processed and deferring system messages preserves the invariant. -/
theorem inv_insert_step (hist0 : List ChatMsg) (calls : List CallExec)
    (hne : calls ≠ []) (h1 : List ChatMsg) (proc : List String)
    (defer : List ChatMsg) (cid s : String) (ib : List InboxMsg)
    (hsh : HistShape hist0 calls h1)
    (hcnt : ∀ id ∈ calls.map (·.call.id),
      countResp id h1 = if id ∈ proc then 1 else 0)
    (hdef : ∀ m ∈ defer, m.role = Role.system)
    (hcid : cid ∈ calls.map (·.call.id))
    (hfree : cid ∉ proc) :
    TurnInv hist0 calls
      { hist := splice (insertionIdx (calls.map (·.call.id)) h1) (toolResp cid s) h1
        inbox := ib
        processed := proc ++ [cid]
        deferred := defer } := by
  refine ⟨shape_splice _ _ _ _ _ hsh (by simp [toolResp])
    (insertionIdx_ge_of_shape _ _ hne _ hsh), ?_, hdef⟩
  intro id hid
  simp only
  rw [countResp_splice, hcnt id hid, respPred_toolResp]
  by_cases he : cid = id
  · subst he
    simp [hfree]
  · have hb : (cid == id) = false := by simp [he]
    have hmem : (id ∈ proc ++ [cid]) ↔ id ∈ proc := by
      simp only [List.mem_append, List.mem_singleton]
      constructor
      · rintro (h | rfl)
        · exact h
        · exact absurd rfl he
      · exact Or.inl
    by_cases hin : id ∈ proc <;> simp [hb, hmem, hin]

/-- Pushing the ToolResult of the current call at the end (the `list_files`
handler) likewise preserves the invariant. -/
theorem inv_append_step (hist0 : List ChatMsg) (calls : List CallExec)
    (h1 : List ChatMsg) (proc : List String)
    (defer : List ChatMsg) (cid s : String) (ib : List InboxMsg)
    (hsh : HistShape hist0 calls h1)
    (hcnt : ∀ id ∈ calls.map (·.call.id),
      countResp id h1 = if id ∈ proc then 1 else 0)
    (hdef : ∀ m ∈ defer, m.role = Role.system)
    (hcid : cid ∈ calls.map (·.call.id))
    (hfree : cid ∉ proc) :
    TurnInv hist0 calls
      { hist := h1 ++ [toolResp cid s]
        inbox := ib
        processed := proc ++ [cid]
        deferred := defer } := by
  refine ⟨shape_append _ _ _ _ hsh (by simp [toolResp]), ?_, hdef⟩
  intro id hid
  simp only
  rw [countResp_append, hcnt id hid]
  have hone : countResp id [toolResp cid s] = if (cid == id) then 1 else 0 := by
    rw [countResp_eq_countP]
    simp [List.countP_cons, respPred_toolResp]
  rw [hone]
  by_cases he : cid = id
  · subst he
    simp [hfree]
  · have hb : (cid == id) = false := by simp [he]
    have hmem : (id ∈ proc ++ [cid]) ↔ id ∈ proc := by
      simp only [List.mem_append, List.mem_singleton]
      constructor
      · rintro (h | rfl)
        · exact h
        · exact absurd rfl he
      · exact Or.inl
    by_cases hin : id ∈ proc <;> simp [hb, hmem, hin]

/-- One loop iteration preserves the invariant; the processed set either
stays or gains exactly the current id. -/
theorem processOneCall_inv (hist0 : List ChatMsg) (calls : List CallExec)
    (hne : calls ≠ []) (st : TurnSt) (c : CallExec)
    (hinv : TurnInv hist0 calls st)
    (hcid : c.call.id ∈ calls.map (·.call.id))
    (hfree : c.call.id ∉ st.processed) :
    TurnInv hist0 calls (processOneCall (calls.map (·.call.id)) st c) ∧
    ((processOneCall (calls.map (·.call.id)) st c).processed = st.processed ∨
     (processOneCall (calls.map (·.call.id)) st c).processed =
       st.processed ++ [c.call.id]) := by
  obtain ⟨hsh, hcnt, hdef⟩ := hinv
  unfold processOneCall
  by_cases hp : c.parseError = true
  · rw [if_pos hp]
    exact ⟨inv_insert_step hist0 calls hne st.hist st.processed st.deferred
      c.call.id _ st.inbox hsh hcnt hdef hcid hfree, Or.inr rfl⟩
  · rw [if_neg hp]
    by_cases hm : isMappedTool c.call.fn = true
    · rw [if_pos hm]
      cases hout : c.outcome with
      | throws =>
          exact ⟨inv_insert_step hist0 calls hne st.hist st.processed st.deferred
            c.call.id _ st.inbox hsh hcnt hdef hcid hfree, Or.inr rfl⟩
      | ok =>
          by_cases hrm : (c.call.fn == "read_message") = true
          · rw [if_pos hrm]
            cases hlast : st.inbox.getLast? with
            | none =>
                exact ⟨inv_insert_step hist0 calls hne st.hist st.processed
                  st.deferred c.call.id _ st.inbox hsh hcnt hdef hcid hfree,
                  Or.inr rfl⟩
            | some m =>
                have hsh' : HistShape hist0 calls
                    (st.hist ++ [userEntry m.sender m.content]) :=
                  shape_append _ _ _ _ hsh (by simp [userEntry])
                have hcnt' : ∀ id ∈ calls.map (·.call.id),
                    countResp id (st.hist ++ [userEntry m.sender m.content]) =
                      if id ∈ st.processed then 1 else 0 := by
                  intro id hid
                  rw [countResp_append, hcnt id hid]
                  have : countResp id [userEntry m.sender m.content] = 0 := by
                    rw [countResp_eq_countP]
                    simp [List.countP_cons, respPred_userEntry]
                  rw [this]
                  omega
                have hdef' : ∀ x ∈ st.deferred ++ [sysOk "read_message"],
                    x.role = Role.system := by
                  intro x hx
                  rcases List.mem_append.mp hx with hx' | hx'
                  · exact hdef x hx'
                  · rw [List.mem_singleton.mp hx']
                    rfl
                exact ⟨inv_insert_step hist0 calls hne
                  (st.hist ++ [userEntry m.sender m.content]) st.processed
                  (st.deferred ++ [sysOk "read_message"]) c.call.id _
                  st.inbox.dropLast hsh' hcnt' hdef' hcid hfree, Or.inr rfl⟩
          · rw [if_neg hrm]
            by_cases hlf : (c.call.fn == "list_files") = true
            · rw [if_pos hlf]
              have hdef' : ∀ x ∈ st.deferred ++ [sysOk "list_files"],
                  x.role = Role.system := by
                intro x hx
                rcases List.mem_append.mp hx with hx' | hx'
                · exact hdef x hx'
                · rw [List.mem_singleton.mp hx']
                  rfl
              exact ⟨inv_append_step hist0 calls st.hist st.processed
                (st.deferred ++ [sysOk "list_files"]) c.call.id _ st.inbox
                hsh hcnt hdef' hcid hfree, Or.inr rfl⟩
            · rw [if_neg hlf]
              have hdef' : ∀ x ∈ st.deferred ++ [sysOk c.call.fn],
                  x.role = Role.system := by
                intro x hx
                rcases List.mem_append.mp hx with hx' | hx'
                · exact hdef x hx'
                · rw [List.mem_singleton.mp hx']
                  rfl
              exact ⟨inv_insert_step hist0 calls hne st.hist st.processed
                (st.deferred ++ [sysOk c.call.fn]) c.call.id _ st.inbox
                hsh hcnt hdef' hcid hfree, Or.inr rfl⟩
    · rw [if_neg hm]
      exact ⟨⟨hsh, hcnt, hdef⟩, Or.inl rfl⟩

/-- An unmapped tool name (no parse error) makes the loop body a no-op: no
branch of the dispatch chain runs, so no response is recorded. -/
theorem processOneCall_unmapped (turnIds : List String) (st : TurnSt)
    (c : CallExec) (hp : c.parseError = false)
    (hm : isMappedTool c.call.fn = false) :
    processOneCall turnIds st c = st := by
  unfold processOneCall
  rw [if_neg (by simp [hp]), if_neg (by simp [hm])]

set_option maxHeartbeats 1000000 in
/-- The tool-call loop preserves the invariant; calls that fall through the
dispatch (unmapped, no parse error) remain unprocessed, as does any id no
remaining call carries. -/
theorem foldl_process_inv (hist0 : List ChatMsg) (calls : List CallExec)
    (hne : calls ≠ []) :
    ∀ (rem : List CallExec) (st : TurnSt),
      TurnInv hist0 calls st →
      (∀ c ∈ rem, c.call.id ∈ calls.map (·.call.id)) →
      (∀ c ∈ rem, c.call.id ∉ st.processed) →
      (rem.map (·.call.id)).Nodup →
      TurnInv hist0 calls
        (rem.foldl (processOneCall (calls.map (·.call.id))) st) ∧
      (∀ c ∈ rem, c.parseError = false → isMappedTool c.call.fn = false →
        c.call.id ∉
          (rem.foldl (processOneCall (calls.map (·.call.id))) st).processed) ∧
      (∀ id, id ∉ st.processed → (∀ c ∈ rem, c.call.id ≠ id) →
        id ∉ (rem.foldl (processOneCall (calls.map (·.call.id))) st).processed) := by
  intro rem
  induction rem with
  | nil =>
      intro st hinv _ _ _
      exact ⟨hinv, by simp, fun id h _ => h⟩
  | cons c rem' ih =>
      intro st hinv hsub hfresh hnd
      have hc := processOneCall_inv hist0 calls hne st c hinv
        (hsub c (List.mem_cons_self _ _)) (hfresh c (List.mem_cons_self _ _))
      have hnd' : (rem'.map (·.call.id)).Nodup := (List.nodup_cons.mp hnd).2
      have hcnot : c.call.id ∉ rem'.map (·.call.id) := (List.nodup_cons.mp hnd).1
      have hfresh' : ∀ c' ∈ rem',
          c'.call.id ∉ (processOneCall (calls.map (·.call.id)) st c).processed := by
        intro c' hc'
        have hne' : c'.call.id ≠ c.call.id := by
          intro he
          exact hcnot (he ▸ List.mem_map_of_mem _ hc')
        rcases hc.2 with hpr | hpr <;> rw [hpr]
        · exact hfresh c' (List.mem_cons_of_mem _ hc')
        · intro hmem
          rcases List.mem_append.mp hmem with h' | h'
          · exact hfresh c' (List.mem_cons_of_mem _ hc') h'
          · exact hne' (List.mem_singleton.mp h')
      have hih := ih (processOneCall (calls.map (·.call.id)) st c) hc.1
        (fun c' hc' => hsub c' (List.mem_cons_of_mem _ hc')) hfresh' hnd'
      rw [List.foldl_cons]
      refine ⟨hih.1, ?_, ?_⟩
      · intro c' hc' hpe hmt
        rcases List.mem_cons.mp hc' with rfl | hc''
        · refine hih.2.2 c'.call.id ?_ ?_
          · rw [processOneCall_unmapped _ _ _ hpe hmt]
            exact hfresh c' (List.mem_cons_self _ _)
          · intro c2 hc2 he
            exact hcnot (he ▸ List.mem_map_of_mem _ hc2)
        · exact hih.2.1 c' hc'' hpe hmt
      · intro id hid hall
        refine hih.2.2 id ?_ (fun c2 hc2 => hall c2 (List.mem_cons_of_mem _ hc2))
        rcases hc.2 with hpr | hpr <;> rw [hpr]
        · exact hid
        · intro hmem
          rcases List.mem_append.mp hmem with h' | h'
          · exact hid h'
          · exact hall c (List.mem_cons_self _ _) (List.mem_singleton.mp h').symm

set_option maxHeartbeats 1000000 in
/-- The `finally` safeguard leaves every remaining id processed, preserves
the invariant and previously processed ids and transcript entries, and puts
a synthesized failure response in the transcript for every id that was still
unprocessed. -/
theorem safeguard_fold (hist0 : List ChatMsg) (calls : List CallExec)
    (hne : calls ≠ []) :
    ∀ (rem : List CallExec) (st : TurnSt),
      TurnInv hist0 calls st →
      (∀ c ∈ rem, c.call.id ∈ calls.map (·.call.id)) →
      TurnInv hist0 calls (safeguardMissing (calls.map (·.call.id)) st rem) ∧
      (∀ c ∈ rem, c.call.id ∈
        (safeguardMissing (calls.map (·.call.id)) st rem).processed) ∧
      (∀ id, id ∈ st.processed →
        id ∈ (safeguardMissing (calls.map (·.call.id)) st rem).processed) ∧
      (∀ x ∈ st.hist, x ∈ (safeguardMissing (calls.map (·.call.id)) st rem).hist) ∧
      (∀ c ∈ rem, c.call.id ∉ st.processed →
        syntheticResp c.call.id ∈
          (safeguardMissing (calls.map (·.call.id)) st rem).hist) := by
  intro rem
  induction rem with
  | nil =>
      intro st hinv _
      exact ⟨hinv, by simp, fun id h => h, fun x hx => hx, by simp⟩
  | cons c rem' ih =>
      intro st hinv hsub
      by_cases hmem : c.call.id ∈ st.processed
      · have hcontains : st.processed.contains c.call.id = true :=
          List.elem_eq_true_of_mem hmem
        have hstep : safeguardMissing (calls.map (·.call.id)) st (c :: rem') =
            safeguardMissing (calls.map (·.call.id)) st rem' := by
          unfold safeguardMissing
          rw [List.foldl_cons, if_pos hcontains]
        rw [hstep]
        have hih := ih st hinv (fun c' hc' => hsub c' (List.mem_cons_of_mem _ hc'))
        refine ⟨hih.1, ?_, hih.2.2.1, hih.2.2.2.1, ?_⟩
        · intro c' hc'
          rcases List.mem_cons.mp hc' with rfl | hc''
          · exact hih.2.2.1 c'.call.id hmem
          · exact hih.2.1 c' hc''
        · intro c' hc' hnp
          rcases List.mem_cons.mp hc' with rfl | hc''
          · exact absurd hmem hnp
          · exact hih.2.2.2.2 c' hc'' hnp
      · have hcontains : st.processed.contains c.call.id = false := by
          cases hcc : st.processed.contains c.call.id
          · rfl
          · exact absurd (List.mem_of_elem_eq_true hcc) hmem
        obtain ⟨hsh, hcnt, hdef⟩ := hinv
        have hinv1 : TurnInv hist0 calls
            { hist := splice (insertionIdx (calls.map (·.call.id)) st.hist)
                (syntheticResp c.call.id) st.hist
              inbox := st.inbox
              processed := st.processed ++ [c.call.id]
              deferred := st.deferred } := by
          exact inv_insert_step hist0 calls hne st.hist st.processed st.deferred
            c.call.id SYNTH_ERROR st.inbox hsh hcnt hdef
            (hsub c (List.mem_cons_self _ _)) hmem
        have hstep : safeguardMissing (calls.map (·.call.id)) st (c :: rem') =
            safeguardMissing (calls.map (·.call.id))
              { hist := splice (insertionIdx (calls.map (·.call.id)) st.hist)
                  (syntheticResp c.call.id) st.hist
                inbox := st.inbox
                processed := st.processed ++ [c.call.id]
                deferred := st.deferred } rem' := by
          unfold safeguardMissing
          rw [List.foldl_cons, if_neg (by rw [hcontains]; exact Bool.false_ne_true)]
          rfl
        rw [hstep]
        have hih := ih _ hinv1 (fun c' hc' => hsub c' (List.mem_cons_of_mem _ hc'))
        have hsynth : syntheticResp c.call.id ∈
            (splice (insertionIdx (calls.map (·.call.id)) st.hist)
              (syntheticResp c.call.id) st.hist) :=
          (mem_splice_iff _ _ _ _).mpr (Or.inl rfl)
        refine ⟨hih.1, ?_, ?_, ?_, ?_⟩
        · intro c' hc'
          rcases List.mem_cons.mp hc' with rfl | hc''
          · exact hih.2.2.1 c'.call.id (by simp)
          · exact hih.2.1 c' hc''
        · intro id hid
          exact hih.2.2.1 id (by simp [hid])
        · intro x hx
          exact hih.2.2.2.1 x ((mem_splice_iff _ _ _ _).mpr (Or.inr hx))
        · intro c' hc' hnp
          rcases List.mem_cons.mp hc' with rfl | hc''
          · exact hih.2.2.2.1 _ hsynth
          · by_cases he : c'.call.id = c.call.id
            · rw [he]
              exact hih.2.2.2.1 _ hsynth
            · exact hih.2.2.2.2 c' hc'' (by
                intro hmem2
                rcases List.mem_append.mp hmem2 with h' | h'
                · exact hnp h'
                · exact he (List.mem_singleton.mp h'))

/-- The post-safeguard verification pass is a no-op once every id has a
response in the transcript. -/
theorem verify_identity (ids : List String) :
    ∀ (rem : List CallExec) (st : TurnSt),
      (∀ c ∈ rem, hasRespIn st.hist c.call.id = true) →
      verifyInHistory ids st rem = st := by
  intro rem
  induction rem with
  | nil => intro st _; rfl
  | cons c rem' ih =>
      intro st hall
      unfold verifyInHistory
      rw [List.foldl_cons, if_pos (hall c (List.mem_cons_self _ _))]
      exact ih st (fun c' hc' => hall c' (List.mem_cons_of_mem _ hc'))

theorem respPred_false_of_not_tool (id : String) (m : ChatMsg)
    (h : m.role ≠ Role.tool) : respPred id m = false := by
  simp [respPred, h]

/-- Splicing system messages at a fixed index past the assistant entry keeps
the shape, the response counts and the existing entries. -/
theorem foldl_splice_system (hist0 : List ChatMsg) (calls : List CallExec)
    (idx : Nat) (hidx : hist0.length + 1 ≤ idx) :
    ∀ (dl : List ChatMsg) (h : List ChatMsg),
      HistShape hist0 calls h →
      (∀ m ∈ dl, m.role = Role.system) →
      HistShape hist0 calls (dl.foldl (fun h m => splice idx m h) h) ∧
      (∀ id, countResp id (dl.foldl (fun h m => splice idx m h) h) =
        countResp id h) ∧
      (∀ x ∈ h, x ∈ dl.foldl (fun h m => splice idx m h) h) := by
  intro dl
  induction dl with
  | nil => intro h hsh _; exact ⟨hsh, fun id => rfl, fun x hx => hx⟩
  | cons m dl' ih =>
      intro h hsh hsys
      have hm : m.role = Role.system := hsys m (List.mem_cons_self _ _)
      have hsh1 : HistShape hist0 calls (splice idx m h) :=
        shape_splice _ _ _ _ _ hsh (by rw [hm]; intro hc; cases hc) hidx
      have hih := ih (splice idx m h) hsh1
        (fun x hx => hsys x (List.mem_cons_of_mem _ hx))
      rw [List.foldl_cons]
      refine ⟨hih.1, ?_, ?_⟩
      · intro id
        rw [hih.2.1 id, countResp_splice,
          respPred_false_of_not_tool id m (by rw [hm]; intro hc; cases hc)]
        simp
      · intro x hx
        exact hih.2.2 x ((mem_splice_iff _ _ _ _).mpr (Or.inr hx))

/-- Appending the deferred system messages keeps shape, counts, entries and
the processed set. -/
theorem appendDeferred_spec (hist0 : List ChatMsg) (calls : List CallExec)
    (st : TurnSt) (hinv : TurnInv hist0 calls st) (hne : calls ≠ []) :
    HistShape hist0 calls (appendDeferred (calls.map (·.call.id)) st).hist ∧
    (∀ id, countResp id (appendDeferred (calls.map (·.call.id)) st).hist =
      countResp id st.hist) ∧
    (∀ x ∈ st.hist, x ∈ (appendDeferred (calls.map (·.call.id)) st).hist) ∧
    (appendDeferred (calls.map (·.call.id)) st).processed = st.processed := by
  obtain ⟨hsh, hcnt, hdef⟩ := hinv
  have hidx : hist0.length + 1 ≤ insertionIdx (calls.map (·.call.id)) st.hist :=
    insertionIdx_ge_of_shape hist0 calls hne st.hist hsh
  have h := foldl_splice_system hist0 calls
    (insertionIdx (calls.map (·.call.id)) st.hist) hidx st.deferred st.hist hsh hdef
  exact ⟨h.1, h.2.1, h.2.2, rfl⟩

/-- Claim C1 (counterexample). A turn invoking `read_message` (non-empty
inbox) and then `list_files` violates contiguity: `read_message` pushes the
drained message as a user entry between the two ToolResults and the deferred
system messages are spliced before the pushed `list_files` result, so the
transcript reads `…, assistant, tool c1, user, system, system, tool c2` —
while each id still has exactly one ToolResult. -/
theorem toolResults_not_contiguous :
    ¬ claimContiguousInOrder cxHist0 cxCalls
      (processTurn cxHist0 cxInbox cxCalls).hist ∧
    countResp "c1" (processTurn cxHist0 cxInbox cxCalls).hist = 1 ∧
    countResp "c2" (processTurn cxHist0 cxInbox cxCalls).hist = 1 ∧
    (processTurn cxHist0 cxInbox cxCalls).hist.map (·.tool_call_id) =
      [none, none, some "c1", none, none, none, some "c2"] := by
  refine ⟨by decide, rfl, rfl, rfl⟩

set_option maxHeartbeats 1000000 in
/-- Claim C1 (amended). For every assistant turn with tool invocations
(distinct correlation ids, none already answered in the transcript), after
the safeguard processing the transcript contains exactly one ToolResult per
invocation id — with a synthesized failure result present for any invocation
whose execution did not itself record one (e.g. an unmapped tool name) — and
every ToolResult sits after the assistant entry (the transcript up to and
including the assistant entry is unchanged); contiguity and invocation order,
however, do not hold in general. -/
theorem toolTurn_exactly_one_response (hist0 : List ChatMsg)
    (inbox : List InboxMsg) (calls : List CallExec)
    (hne : calls ≠ [])
    (hnodup : (calls.map (·.call.id)).Nodup)
    (hfresh : ∀ m ∈ hist0, ∀ c ∈ calls, m.tool_call_id ≠ some c.call.id) :
    (∀ c ∈ calls, countResp c.call.id (processTurn hist0 inbox calls).hist = 1) ∧
    ((processTurn hist0 inbox calls).hist.take (hist0.length + 1) =
      hist0 ++ [turnAssistant calls]) ∧
    (∀ c ∈ calls, c.parseError = false → isMappedTool c.call.fn = false →
      syntheticResp c.call.id ∈ (processTurn hist0 inbox calls).hist) := by
  have hids : ∀ c ∈ calls, c.call.id ∈ calls.map (·.call.id) :=
    fun c hc => List.mem_map_of_mem _ hc
  set st0 : TurnSt := ⟨hist0 ++ [turnAssistant calls], inbox, [], []⟩ with hst0
  have hinv0 : TurnInv hist0 calls st0 := by
    refine ⟨⟨[], by simp [hst0], by simp⟩, ?_, by simp [hst0]⟩
    intro id hid
    obtain ⟨c, hc, rfl⟩ := List.mem_map.mp hid
    have h0 : countResp c.call.id hist0 = 0 := by
      rw [countResp_eq_countP, List.countP_eq_zero]
      intro m hm hp
      unfold respPred at hp
      rw [Bool.and_eq_true] at hp
      have h2 := hp.2
      rw [beq_iff_eq] at h2
      exact hfresh m hm c hc h2
    have h1 : countResp c.call.id [turnAssistant calls] = 0 := by
      rw [countResp_eq_countP]
      simp [List.countP_cons, respPred_turnAssistant]
    have hh : st0.hist = hist0 ++ [turnAssistant calls] := rfl
    rw [hh, countResp_append, h0, h1]
    simp [hst0]
  have hfold := foldl_process_inv hist0 calls hne calls st0 hinv0 hids
    (by simp [hst0]) hnodup
  set st1 := calls.foldl (processOneCall (calls.map (·.call.id))) st0 with hst1
  have hsg := safeguard_fold hist0 calls hne calls st1 hfold.1 hids
  set st2 := safeguardMissing (calls.map (·.call.id)) st1 calls with hst2
  have hcnt2 : ∀ c ∈ calls, countResp c.call.id st2.hist = 1 := by
    intro c hc
    have hin := hsg.2.1 c hc
    have hcount := hsg.1.2.1 c.call.id (hids c hc)
    rw [hcount, if_pos hin]
  have hver : verifyInHistory (calls.map (·.call.id)) st2 calls = st2 :=
    verify_identity _ calls st2 (fun c hc =>
      hasRespIn_of_countResp_pos _ _ (by rw [hcnt2 c hc]; omega))
  have had := appendDeferred_spec hist0 calls st2 hsg.1 hne
  have hpt : processTurn hist0 inbox calls =
      appendDeferred (calls.map (·.call.id))
        (verifyInHistory (calls.map (·.call.id)) st2 calls) := rfl
  rw [hver] at hpt
  refine ⟨?_, ?_, ?_⟩
  · intro c hc
    rw [hpt, had.2.1 c.call.id]
    exact hcnt2 c hc
  · obtain ⟨tail, hfin, -⟩ := had.1
    rw [hpt, hfin]
    have hform : hist0 ++ turnAssistant calls :: tail =
        (hist0 ++ [turnAssistant calls]) ++ tail := by simp
    rw [hform]
    have hlen : hist0.length + 1 = (hist0 ++ [turnAssistant calls]).length := by
      simp
    rw [hlen]
    exact List.take_left _ _
  · intro c hc hpe hmt
    have hnp : c.call.id ∉ st1.processed := hfold.2.1 c hc hpe hmt
    have hsn : syntheticResp c.call.id ∈ st2.hist := hsg.2.2.2.2 c hc hnp
    rw [hpt]
    exact had.2.2.1 _ hsn

/-- Witness for C1 (amended): a one-call turn (`create_file`) on an empty
transcript ends with exactly one ToolResult for its id, after the assistant
entry; a one-call turn naming an unknown tool gets a synthesized failure. -/
theorem toolTurn_exactly_one_response_witness :
    countResp "w1" (processTurn [] [] [wCall]).hist = 1 ∧
    (processTurn [] [] [wCall]).hist.take 1 = [turnAssistant [wCall]] ∧
    syntheticResp "w2" ∈ (processTurn [] [] [wMystery]).hist := by
  have h1 := toolTurn_exactly_one_response [] [] [wCall] (by simp)
    (by simp) (by simp)
  have h2 := toolTurn_exactly_one_response [] [] [wMystery] (by simp)
    (by simp) (by simp)
  refine ⟨h1.1 wCall (by simp), ?_, ?_⟩
  · have := h1.2.1
    simpa using this
  · exact h2.2.2 wMystery (by simp) rfl (by decide)

end Server

